import Mathlib

set_option maxRecDepth 20000

/-!
Verification development for the `pybf` interpreter (`src/bf.py`).

The file embeds the compiler / instruction-set / VM triad of `bf.py` as
executable Lean definitions and proves properties about them.

Modelling conventions, mirroring the Python source:
* A compiled instruction (a Python closure carrying `close_addr`, `repr`,
  `src`, `type` attributes) becomes the tagged variant `Inst`; the
  debug-only `repr`/`src` strings are not needed by any property here and
  are omitted.
* Machine integers are `Int`/`Nat`; Python's `%` on a positive modulus is
  `Int.emod`, which agrees with it (result in `[0, modulus)`).
* The input collaborator (`TermIO.getch`, a process-global reading stdin)
  becomes an explicit character queue inside the VM state; exhausted input
  is modelled as the end-of-input condition.  The output stream is a list
  of emitted character codes.
* `BFVM.run`'s unbounded `while` loop becomes the fuel-indexed `runFuel`;
  the `Outcome.fuelOut` result exposes every intermediate state, so
  invariants proved for all fuels hold after every executed operation.
* Exceptions become `Except`/`Outcome` values.  `run`'s
  `except Exception as e: raise BFInternalError('%s: %s' % ...)` is the
  `wrapErr` function: it wraps `BFRuntimeError` and `EOFError` (both
  `Exception` subclasses) into an internal error carrying the original
  exception's name, while `KeyboardInterrupt` (not an `Exception` in
  Python) escapes unwrapped as `Outcome.interrupt`.
-/

/-- One compiled instruction of `bf.py` (the closures built by
`BFDefaultInstructions`): merged `+`/`-` delta, merged `<`/`>` delta,
loop open with its optionally resolved close address, loop close with the
(already decremented) address captured from the backward scan, input and
output. -/
inductive Inst where
  | add (delta : Int)
  | move_ptr (delta : Int)
  | open_loop (close_addr : Option Nat)
  | close_loop (open_addr : Int)
  | getch
  | putch
  deriving DecidableEq, Inhabited

def Inst.isOpen : Inst → Bool
  | .open_loop _ => true
  | _ => false

def Inst.isClose : Inst → Bool
  | .close_loop _ => true
  | _ => false

/-- `c in ('+', '-')` -/
def isPM (c : Char) : Bool := c = '+' || c = '-'

/-- `c in ('<', '>')` -/
def isLR (c : Char) : Bool := c = '<' || c = '>'

/-- membership in the `BFDefaultInstructions.instructions` dict -/
def isBFChar (c : Char) : Bool :=
  isPM c || isLR c || c = '[' || c = ']' || c = ',' || c = '.'

/-- `(src[0] == '+') - (src[0] == '-')` -/
def pmVal (c : Char) : Int := (if c = '+' then 1 else 0) - (if c = '-' then 1 else 0)

/-- `(src[0] == '>') - (src[0] == '<')` -/
def lrVal (c : Char) : Int := (if c = '>' then 1 else 0) - (if c = '<' then 1 else 0)

namespace BFDefaultInstructions

/-- The `while src[0] in ('+', '-')` loop of `BFDefaultInstructions.add`:
consume the maximal prefix of `+`/`-` characters, accumulating the signed
delta; return the remaining source and the delta. -/
def addLoop : List Char → Int → List Char × Int
  | [], delta => ([], delta)
  | c :: rest, delta =>
      if isPM c then addLoop rest (delta + pmVal c) else (c :: rest, delta)

/-- `BFDefaultInstructions.add`: merge a `+`/`-` run; emit nothing when the
deltas cancel to zero. -/
def add (src : List Char) : Option Inst × List Char :=
  let p := addLoop src 0
  if p.2 = 0 then (none, p.1) else (some (.add p.2), p.1)

/-- The `while src[0] in ('<', '>')` loop of `BFDefaultInstructions.move_ptr`. -/
def moveLoop : List Char → Int → List Char × Int
  | [], delta => ([], delta)
  | c :: rest, delta =>
      if isLR c then moveLoop rest (delta + lrVal c) else (c :: rest, delta)

/-- `BFDefaultInstructions.move_ptr`: merge a `<`/`>` run; emit nothing when
the deltas cancel to zero. -/
def move_ptr (src : List Char) : Option Inst × List Char :=
  let p := moveLoop src 0
  if p.2 = 0 then (none, p.1) else (some (.move_ptr p.2), p.1)

/-- The backward scan of `BFDefaultInstructions.close_loop`:
`open_addr = len(compiled) - 1; depth = 1;`
`while open_addr >= 0 and depth > 0: ...; open_addr -= 1`.
The first argument below is `open_addr + 1` (so `0` encodes `open_addr = -1`);
the result is the final `(open_addr, depth)` pair.  Note the loop leaves
`open_addr` one BELOW the index of the matched `open_loop`. -/
def scanBack (compiled : List Inst) : Nat → Int → Int × Int
  | 0, depth => (-1, depth)
  | n + 1, depth =>
      if 0 < depth then
        let inst := compiled.getD n default
        scanBack compiled n
          (depth - (if inst.isOpen then 1 else 0) + (if inst.isClose then 1 else 0))
      else ((n : Int), depth)

/-- `BFDefaultInstructions.close_loop` as a transformer of the compiled
list: scan backward for the matching open; on failure (`depth > 0`) report
the unopened loop; on success back-fill the matched open's `close_addr`
with the index this close instruction is about to get
(`inst.close_addr = len(compiled)`) and append the close instruction, whose
captured jump target is the final `open_addr` (match index minus one). -/
def close_loop (compiled : List Inst) : Option (List Inst) :=
  let r := scanBack compiled compiled.length 1
  if 0 < r.2 then none
  else some ((compiled.set (r.1 + 1).toNat (.open_loop (some compiled.length))) ++
             [.close_loop r.1])

end BFDefaultInstructions

/-- `BFCompileError`, carrying the 0-based source position and offending
character that `BFCompiler.compile`'s `except` clause formats into the
message `'Compile-time error at char %i (%s): ...'`. -/
inductive CompileError where
  | unopenedLoop (pos : Nat) (ch : Char)
  deriving DecidableEq

/-- The `while len(code)` dispatch loop of `BFCompiler.compile`, indexed by
fuel (one unit per loop iteration).  `origLen` is `len(orig_code)`, used
only for the error position `len(orig_code) - len(code)`.  `none` means the
fuel ran out (which never happens from `s.length + 1` fuel, each dispatch
consuming at least one character). -/
def compileAux (origLen : Nat) : Nat → List Char → List Inst →
    Option (Except CompileError (List Inst))
  | 0, _, _ => none
  | _ + 1, [], insts => some (.ok insts)
  | fuel + 1, c :: cs, insts =>
      if isPM c then
        match BFDefaultInstructions.add (c :: cs) with
        | (none, rest) => compileAux origLen fuel rest insts
        | (some i, rest) => compileAux origLen fuel rest (insts ++ [i])
      else if isLR c then
        match BFDefaultInstructions.move_ptr (c :: cs) with
        | (none, rest) => compileAux origLen fuel rest insts
        | (some i, rest) => compileAux origLen fuel rest (insts ++ [i])
      else if c = '[' then compileAux origLen fuel cs (insts ++ [.open_loop none])
      else if c = ']' then
        match BFDefaultInstructions.close_loop insts with
        | none => some (.error (.unopenedLoop (origLen - (cs.length + 1)) c))
        | some insts2 => compileAux origLen fuel cs insts2
      else if c = ',' then compileAux origLen fuel cs (insts ++ [.getch])
      else if c = '.' then compileAux origLen fuel cs (insts ++ [.putch])
      else compileAux origLen fuel cs insts

/-- `BFCompiler.compile`.  The fuel `s.length + 1` is always sufficient
(see `compileAux_isSome`), so the `getD` default is dead code. -/
def compile (s : List Char) : Except CompileError (List Inst) :=
  (compileAux s.length (s.length + 1) s []).getD (.error (.unopenedLoop 0 ']'))

/-- The mutable state of `BFVM` plus the explicit input/output streams of
the collaborators (`TermIO` / stdout). -/
structure BFVM where
  mem_size : Nat
  cell_size : Nat
  mem_ptr : Int
  memory : List Int
  code_ptr : Int
  input : List Char
  output : List Nat
  deriving DecidableEq

/-- `BFVM.reset`: `mem_ptr = 0; memory = [0] * mem_size; code_ptr = 0`. -/
def BFVM.reset (vm : BFVM) : BFVM :=
  { vm with mem_ptr := 0, memory := List.replicate vm.mem_size 0, code_ptr := 0 }

/-- `BFVM.__init__(mem_size, cell_size)` followed by the queued input:
stores the sizes and calls `reset`. -/
def mkVM (mem_size cell_size : Nat) (input : List Char) : BFVM :=
  BFVM.reset { mem_size := mem_size, cell_size := cell_size, mem_ptr := 0,
               memory := [], code_ptr := 0, input := input, output := [] }

/-- Exceptions an executing instruction can raise: `BFRuntimeError`,
`EOFError` (end of input, Ctrl-D), `KeyboardInterrupt` (Ctrl-C). -/
inductive ExecErr where
  | rte (msg : String)
  | eofCond
  | intrCond
  deriving DecidableEq

/-- `TermIO.getch`: one character from the queue; `\x03` raises the
interrupt, `\x04` the end-of-input condition, `\r` is translated to `\n`;
an exhausted queue is end-of-input. -/
def termGetch : List Char → Except ExecErr (Char × List Char)
  | [] => .error .eofCond
  | c :: rest =>
      if c = '\x03' then .error .intrCond
      else if c = '\x04' then .error .eofCond
      else if c = '\r' then .ok ('\n', rest)
      else .ok (c, rest)

/-- `vm.memory[vm.mem_ptr]` (the pointer is kept in `[0, mem_size)` by the
executed operations). -/
def memGet (vm : BFVM) : Int := vm.memory.getD vm.mem_ptr.toNat 0

/-- The run-time behaviour of each instruction: the closure bodies built by
`BFDefaultInstructions`. -/
def execInst : Inst → BFVM → Except ExecErr BFVM
  | .add delta, vm =>
      .ok { vm with memory :=
        vm.memory.set vm.mem_ptr.toNat ((memGet vm + delta) % (vm.cell_size : Int)) }
  | .move_ptr delta, vm =>
      .ok { vm with mem_ptr := (vm.mem_ptr + delta) % (vm.mem_size : Int) }
  | .open_loop close_addr, vm =>
      if memGet vm = 0 then
        match close_addr with
        | none => .error (.rte "Unclosed loop")
        | some a => .ok { vm with code_ptr := (a : Int) }
      else .ok vm
  | .close_loop open_addr, vm =>
      if memGet vm ≠ 0 then .ok { vm with code_ptr := open_addr } else .ok vm
  | .getch, vm =>
      match termGetch vm.input with
      | .error e => .error e
      | .ok (c, rest) =>
          .ok { vm with memory := vm.memory.set vm.mem_ptr.toNat (c.toNat : Int),
                        input := rest }
  | .putch, vm => .ok { vm with output := vm.output ++ [(memGet vm).toNat] }

/-- One iteration of the `while` loop body of `BFVM.run`, parametrised by
the instruction semantics: execute `code[code_ptr]` then apply the
unconditional `code_ptr += 1`. -/
def stepWith (ex : Inst → BFVM → Except ExecErr BFVM) (prog : List Inst)
    (vm : BFVM) : Except ExecErr BFVM :=
  match ex (prog.getD vm.code_ptr.toNat default) vm with
  | .error e => .error e
  | .ok vm2 => .ok { vm2 with code_ptr := vm2.code_ptr + 1 }

/-- Result of a (fuel-bounded) `BFVM.run`. -/
inductive Outcome where
  | done (vm : BFVM)
  | err (excName msg : String) (vm : BFVM)
  | interrupt (vm : BFVM)
  | fuelOut (vm : BFVM)
  deriving DecidableEq

/-- The `except Exception as e: raise BFInternalError('%s: %s' % (type(e).__name__, e))`
boundary of `BFVM.run`: every `Exception` (including `BFRuntimeError` and
`EOFError`) is re-wrapped as a `BFInternalError` carrying the original
exception's class name and message; `KeyboardInterrupt` is not an
`Exception` and escapes unwrapped. -/
def wrapErr (e : ExecErr) (vm : BFVM) : Outcome :=
  match e with
  | .rte m => .err "BFRuntimeError" m vm
  | .eofCond => .err "EOFError" "" vm
  | .intrCond => .interrupt vm

/-- `while self.code_ptr < len(self.code): ...`, fuel-indexed and
parametrised by the instruction semantics. -/
def runFuelWith (ex : Inst → BFVM → Except ExecErr BFVM) (prog : List Inst) :
    Nat → BFVM → Outcome
  | 0, vm => .fuelOut vm
  | fuel + 1, vm =>
      if vm.code_ptr < (prog.length : Int) then
        match stepWith ex prog vm with
        | .error e => wrapErr e vm
        | .ok vm2 => runFuelWith ex prog fuel vm2
      else .done vm

/-- One execution step of `BFVM.run` (instruction plus post-increment). -/
def vmStep : List Inst → BFVM → Except ExecErr BFVM := stepWith execInst

/-- `BFVM.run(instructions)`, fuel-bounded.  Note it does NOT call `reset`:
execution starts from the VM's current state. -/
def runFuel (prog : List Inst) : Nat → BFVM → Outcome := runFuelWith execInst prog

/-- The VM state carried by an outcome (the state `run` leaves behind for
diagnostics, whether the run completed, failed or is still going). -/
def Outcome.vm : Outcome → BFVM
  | .done v => v
  | .err _ _ v => v
  | .interrupt v => v
  | .fuelOut v => v

def Outcome.isDone : Outcome → Bool
  | .done _ => true
  | _ => false

/-- Modelled from the spec: the reference loop-close semantics against
which the implementation is compared ("a taken LoopClose jump transfers
control directly to the first instruction of the loop body").  With the
post-increment of the run loop this means writing `open_addr + 1` (the
matched open's own index) so that the next fetched instruction is the one
after the open.  All other instructions behave exactly as implemented. -/
def refExecInst : Inst → BFVM → Except ExecErr BFVM
  | .close_loop open_addr, vm =>
      if memGet vm ≠ 0 then .ok { vm with code_ptr := open_addr + 1 } else .ok vm
  | i, vm => execInst i vm

/-- The reference interpreter's run loop. -/
def refRunFuel (prog : List Inst) : Nat → BFVM → Outcome := runFuelWith refExecInst prog

/-- Forward (left-to-right) bracket reading: processing an instruction at
index `n` pushes opens and pops/pairs closes.  This is the standard,
scan-independent definition of loop matching used to judge the compiler's
backward scan. -/
def bracketStep (x : Inst) (n : Nat) :
    List Nat × List (Nat × Nat) → List Nat × List (Nat × Nat)
  | (s, ps) =>
      match x with
      | .open_loop _ => (n :: s, ps)
      | .close_loop _ =>
          match s with
          | [] => ([], ps)
          | m :: s2 => (s2, (m, n) :: ps)
      | _ => (s, ps)

def bracketState : List Inst → Nat → List Nat × List (Nat × Nat) →
    List Nat × List (Nat × Nat)
  | [], _, sp => sp
  | x :: rest, n, sp => bracketState rest (n + 1) (bracketStep x n sp)

/-- Indices of the currently unmatched `open_loop` instructions, innermost
(largest index) first. -/
def openStack (l : List Inst) : List Nat := (bracketState l 0 ([], [])).1

/-- The matched (open index, close index) pairs of a compiled sequence. -/
def matchPairs (l : List Inst) : List (Nat × Nat) := (bracketState l 0 ([], [])).2

/-- Every `close_loop`'s captured target, plus one, is the index of an
`open_loop` of the program ("the loop brackets are all matched"). -/
def wellMatchedB (prog : List Inst) : Bool :=
  (List.range prog.length).all fun j =>
    match prog.getD j default with
    | .close_loop t =>
        decide (0 ≤ t + 1) &&
          (match prog.get? (t + 1).toNat with
           | some (.open_loop _) => true
           | _ => false)
    | _ => true

/-- All resolved jump targets land inside the program: a taken `open_loop`
jump writes an index `< length`, a taken `close_loop` jump writes a value
in `[-1, length)`. -/
def TargetsOk (prog : List Inst) : Prop :=
  (∀ i j, prog.get? i = some (.open_loop (some j)) → j < prog.length) ∧
  (∀ j t, prog.get? j = some (.close_loop t) → -1 ≤ t ∧ t < (prog.length : Int))

/-- The successful payload of a compile result (used to compare compiles
whose error positions would differ). -/
def okP : Option (Except CompileError (List Inst)) → Option (List Inst)
  | some (.ok l) => some l
  | _ => none

/-- Remove every character the compiler does not recognize. -/
def stripNoise (s : List Char) : List Char := s.filter isBFChar

/-- Two characters belong to the same merged-run family (`+`/`-`, or
`<`/`>`). -/
def sameFamily (c d : Char) : Bool := (isPM c && isPM d) || (isLR c && isLR d)

/-- `noSplitAux prev s`: no noise character of `s` sits between a
same-family pair of significant characters (`prev` is the character
physically preceding `s`).  Noise placed like that splits a maximal
`+`/`-` or `<`/`>` run. -/
def noSplitAux : Option Char → List Char → Bool
  | _, [] => true
  | prev, c :: rest =>
      (if isBFChar c then true
       else
         match prev, (stripNoise rest).head? with
         | some x, some y => !(sameFamily x y)
         | _, _ => true) && noSplitAux (some c) rest

def noSplit (s : List Char) : Bool := noSplitAux none s

deriving instance DecidableEq for Except

/-- The spec's merged-run delta formula `k - (n - k)` for a run `r` with
`k` occurrences of the incrementing character (`'+'` or `'>'`). -/
def mergeDelta (plus : Char) (r : List Char) : Int :=
  (r.count plus : Int) - ((r.length : Int) - (r.count plus : Int))

/-- Inductive invariant of the compiled sequence maintained by the
compiler: unmatched opens are unresolved; matched pairs carry each other's
addresses exactly as `close_loop` back-fills them (the open holds the
close's index, the close holds the open's index minus one); every resolved
open and every close belongs to a matched pair; the unmatched-open stack
is strictly decreasing and in range. -/
def compileInv (l : List Inst) : Prop :=
  (∀ i ∈ openStack l, l.get? i = some (.open_loop none)) ∧
  (∀ p ∈ matchPairs l, l.get? p.1 = some (.open_loop (some p.2)) ∧
      l.get? p.2 = some (.close_loop ((p.1 : Int) - 1))) ∧
  (∀ i j, l.get? i = some (.open_loop (some j)) → (i, j) ∈ matchPairs l) ∧
  (∀ j t, l.get? j = some (.close_loop t) →
      ∃ i, (i, j) ∈ matchPairs l ∧ t = (i : Int) - 1) ∧
  (openStack l).Sorted (· > ·) ∧
  (∀ i ∈ openStack l, i < l.length)

-- Sanity checks (claims' concrete scenarios evaluate as analysed).
example : compile ['+', 'x', '+'] = .ok [.add 1, .add 1] := by decide
example : compile ['+', '+'] = .ok [.add 2] := by decide
example : compile ['[', ']'] = .ok [.open_loop (some 1), .close_loop (-1)] := by decide
example : compile ['['] = .ok [.open_loop none] := by decide
example : compile [']'] = .error (.unopenedLoop 0 ']') := by decide
example : compile ['+', '[', '-', ']'] =
    .ok [.add 1, .open_loop (some 3), .add (-1), .close_loop 0] := by decide
example : matchPairs [.open_loop (some 1), .close_loop (-1)] = [(0, 1)] := by decide
example :
    runFuel [.open_loop none] 2 (mkVM 4 4 []) =
      .err "BFRuntimeError" "Unclosed loop" (mkVM 4 4 []) := by decide
example :
    (runFuel [.getch] 2 (mkVM 4 256 ['Ā'])).vm.memory.getD 0 0 = 256 := by decide

/-! ### Generic run-loop lemmas -/

theorem runFuelWith_zero (ex : Inst → BFVM → Except ExecErr BFVM)
    (prog : List Inst) (vm : BFVM) : runFuelWith ex prog 0 vm = .fuelOut vm := rfl

theorem runFuelWith_succ (ex : Inst → BFVM → Except ExecErr BFVM)
    (prog : List Inst) (fuel : Nat) (vm : BFVM) :
    runFuelWith ex prog (fuel + 1) vm =
      if vm.code_ptr < (prog.length : Int) then
        match stepWith ex prog vm with
        | .error e => wrapErr e vm
        | .ok vm2 => runFuelWith ex prog fuel vm2
      else .done vm := rfl

theorem runFuelWith_done_succ (ex : Inst → BFVM → Except ExecErr BFVM)
    (prog : List Inst) :
    ∀ (f : Nat) (vm v : BFVM), runFuelWith ex prog f vm = .done v →
      runFuelWith ex prog (f + 1) vm = .done v := by
  intro f
  induction f with
  | zero => intro vm v h; rw [runFuelWith_zero] at h; exact Outcome.noConfusion h
  | succ g ih =>
    intro vm v h
    rw [runFuelWith_succ] at h
    rw [runFuelWith_succ]
    by_cases hc : vm.code_ptr < (prog.length : Int)
    · rw [if_pos hc] at h ⊢
      cases hs : stepWith ex prog vm with
      | error e => rw [hs] at h; exact h
      | ok vm2 =>
        rw [hs] at h
        show runFuelWith ex prog (g + 1) vm2 = .done v
        exact ih vm2 v h
    · rw [if_neg hc] at h ⊢; exact h

theorem runFuelWith_done_le (ex : Inst → BFVM → Except ExecErr BFVM)
    (prog : List Inst) {f f' : Nat} (hle : f ≤ f') {vm v : BFVM}
    (h : runFuelWith ex prog f vm = .done v) :
    runFuelWith ex prog f' vm = .done v := by
  obtain ⟨k, rfl⟩ := Nat.exists_eq_add_of_le hle
  clear hle
  induction k with
  | zero => exact h
  | succ m ih => exact runFuelWith_done_succ ex prog (f + m) vm v ih

/-! ### Claim C1: loop jump targets (counterexample part) -/

/-- Claim C1 as stated is false: in the program compiled from `[]`, the
close instruction's captured jump target is `-1`, not the index `0` of its
matching open (the backward scan decrements past the match before the
closure captures `open_addr`). -/
theorem c1_counterexample :
    compile ['[', ']'] = .ok [.open_loop (some 1), .close_loop (-1)] ∧
    matchPairs [.open_loop (some 1), .close_loop (-1)] = [(0, 1)] ∧
    ((-1 : Int) ≠ (0 : Int)) :=
  ⟨by decide, by decide, by decide⟩

/-! ### Claim C2: the runtime error is re-wrapped at the VM boundary -/

/-- Evaluation at the failing input for claim C2: the source `[` compiles,
and running it on a fresh default VM (current cell zero, so the loop-taken
condition holds and the unresolved target is hit) makes `run` fail with a
`BFInternalError` whose message records the wrapped `BFRuntimeError` — the
`except Exception` boundary of `BFVM.run` catches its own
`BFRuntimeError`, so the caller never sees a runtime error and a standard
instruction does trigger the internal-error wrap. -/
theorem c2_wrapped_runtime_error :
    compile ['['] = .ok [.open_loop none] ∧
    runFuel [.open_loop none] 2 (mkVM 1024 256 []) =
      .err "BFRuntimeError" "Unclosed loop" (mkVM 1024 256 []) :=
  ⟨by decide, by decide⟩

/-! ### Claim C3: `run` does not reset the VM -/

set_option maxRecDepth 8000 in
/-- Claim C3 is false: `BFVM.run` never calls `reset`, so a second run on
the same VM instance starts from the previous final state.  Concretely:
after running the program compiled from `+`, running the program compiled
from `++` on the same VM differs from running it on the freshly reset VM
(the stale `code_ptr = 1` makes the second run execute nothing). -/
theorem c3_counterexample :
    compile ['+'] = .ok [.add 1] ∧
    compile ['+', '+'] = .ok [.add 2] ∧
    runFuel [.add 2] 2 ((runFuel [.add 1] 2 (mkVM 1024 256 [])).vm) ≠
      runFuel [.add 2] 2 (((runFuel [.add 1] 2 (mkVM 1024 256 [])).vm).reset) :=
  ⟨by decide, by decide, by decide⟩

/-- Amended claim C3: the VM state is fresh (instruction pointer 0, data
pointer 0, all-zero tape) at construction and after an explicit `reset`;
`run` itself does not reset, so only the first run on a
freshly-constructed (or freshly reset) VM is guaranteed to start from the
fresh state. -/
theorem c3_amended : ∀ (ms cs : Nat) (inp : List Char) (vm : BFVM),
    (mkVM ms cs inp).code_ptr = 0 ∧ (mkVM ms cs inp).mem_ptr = 0 ∧
    (mkVM ms cs inp).memory = List.replicate ms 0 ∧
    mkVM ms cs inp = (mkVM ms cs inp).reset ∧
    vm.reset.code_ptr = 0 ∧ vm.reset.mem_ptr = 0 ∧
    vm.reset.memory = List.replicate vm.mem_size 0 :=
  fun _ _ _ _ => ⟨rfl, rfl, rfl, rfl, rfl, rfl, rfl⟩

/-! ### Claim C4: noise interleaving (counterexample part) -/

/-- Claim C4 as stated is false: a noise character interleaved inside a
maximal `+`/`-` run splits the run-length merge, so `+x+` compiles to two
instructions while the noise-free `++` compiles to one. -/
theorem c4_counterexample :
    stripNoise ['+', 'x', '+'] = ['+', '+'] ∧
    compile ['+', 'x', '+'] = .ok [.add 1, .add 1] ∧
    compile ['+', '+'] = .ok [.add 2] ∧
    ([Inst.add 1, Inst.add 1] : List Inst) ≠ [Inst.add 2] :=
  ⟨by decide, by decide, by decide, by decide⟩

/-! ### Claim C5: cell bounds (counterexample part) -/

/-- Claim C5 as stated is false: the Input operation stores the raw
character code with no modulus (`vm.memory[vm.mem_ptr] = ord(getch())`),
so a character whose code is `≥ cell_size` leaves the cell out of
`[0, cell_size)`.  Concretely, inputting `'Ā'` (code 256) on the default
VM (cell modulus 256) leaves the cell at 256. -/
theorem c5_counterexample :
    compile [','] = .ok [.getch] ∧
    (runFuel [.getch] 2 (mkVM 1024 256 ['Ā'])).vm.memory.getD 0 0 = 256 ∧
    ¬ ((runFuel [.getch] 2 (mkVM 1024 256 ['Ā'])).vm.memory.getD 0 0 <
        ((runFuel [.getch] 2 (mkVM 1024 256 ['Ā'])).vm.cell_size : Int)) :=
  ⟨by decide, by decide, by decide⟩

/-! ### Claim C6: source `[` compiles but raises at run time -/

/-- Claim C6 as stated is false: on an all-zero tape the current cell IS
zero, so the loop-taken condition of the lone `[` holds immediately, the
jump is attempted, and the unresolved target raises — the run does not
complete. -/
theorem c6_counterexample :
    compile ['['] = .ok [.open_loop none] ∧
    (runFuel [.open_loop none] 2 (mkVM 1024 256 [])).isDone = false :=
  ⟨by decide, by decide⟩

/-- Amended claim C6: the one-character source `[` compiles successfully,
but executing it against an all-zero tape immediately raises: the cell
under the pointer is zero, so the jump is taken, the unresolved target
triggers the `Unclosed loop` runtime error, and the VM boundary re-wraps
it as an internal error (for any amount of fuel, i.e. immediately). -/
theorem c6_amended :
    compile ['['] = .ok [.open_loop none] ∧
    ∀ f : Nat, runFuel [.open_loop none] (f + 1) (mkVM 1024 256 []) =
      .err "BFRuntimeError" "Unclosed loop" (mkVM 1024 256 []) := by
  refine ⟨by decide, fun f => ?_⟩
  show runFuelWith execInst [Inst.open_loop none] (f + 1) (mkVM 1024 256 []) = _
  rw [runFuelWith_succ, if_pos (by decide)]
  have hs : stepWith execInst [.open_loop none] (mkVM 1024 256 []) =
      .error (.rte "Unclosed loop") := by decide
  rw [hs]
  rfl

/-! ### Compiler dispatch-step lemmas -/

theorem compileAux_nil (o fuel : Nat) (insts : List Inst) :
    compileAux o (fuel + 1) [] insts = some (.ok insts) := rfl

theorem compileAux_pm (o fuel : Nat) (c : Char) (cs : List Char)
    (insts : List Inst) (h : isPM c = true) :
    compileAux o (fuel + 1) (c :: cs) insts =
      match BFDefaultInstructions.add (c :: cs) with
      | (none, rest) => compileAux o fuel rest insts
      | (some i, rest) => compileAux o fuel rest (insts ++ [i]) := by
  simp [compileAux, h]

theorem compileAux_lr (o fuel : Nat) (c : Char) (cs : List Char)
    (insts : List Inst) (hpm : isPM c = false) (h : isLR c = true) :
    compileAux o (fuel + 1) (c :: cs) insts =
      match BFDefaultInstructions.move_ptr (c :: cs) with
      | (none, rest) => compileAux o fuel rest insts
      | (some i, rest) => compileAux o fuel rest (insts ++ [i]) := by
  simp [compileAux, hpm, h]

theorem compileAux_open (o fuel : Nat) (cs : List Char) (insts : List Inst) :
    compileAux o (fuel + 1) ('[' :: cs) insts =
      compileAux o fuel cs (insts ++ [.open_loop none]) := by
  simp [compileAux, isPM, isLR]

theorem compileAux_close (o fuel : Nat) (cs : List Char) (insts : List Inst) :
    compileAux o (fuel + 1) (']' :: cs) insts =
      match BFDefaultInstructions.close_loop insts with
      | none => some (.error (.unopenedLoop (o - (cs.length + 1)) ']'))
      | some insts2 => compileAux o fuel cs insts2 := by
  simp [compileAux, isPM, isLR]

theorem compileAux_getch (o fuel : Nat) (cs : List Char) (insts : List Inst) :
    compileAux o (fuel + 1) (',' :: cs) insts =
      compileAux o fuel cs (insts ++ [.getch]) := by
  simp [compileAux, isPM, isLR]

theorem compileAux_putch (o fuel : Nat) (cs : List Char) (insts : List Inst) :
    compileAux o (fuel + 1) ('.' :: cs) insts =
      compileAux o fuel cs (insts ++ [.putch]) := by
  simp [compileAux, isPM, isLR]

theorem compileAux_skip (o fuel : Nat) (c : Char) (cs : List Char)
    (insts : List Inst) (h : isBFChar c = false) :
    compileAux o (fuel + 1) (c :: cs) insts = compileAux o fuel cs insts := by
  have h' := h
  simp only [isBFChar, Bool.or_eq_false_iff, decide_eq_false_iff_not] at h'
  obtain ⟨⟨⟨⟨⟨h1, h2⟩, h3⟩, h4⟩, h5⟩, h6⟩ := h'
  simp [compileAux, h1, h2, h3, h4, h5, h6]

/-! ### Run-length merge characterisation (claims C7, C4, C8) -/

theorem addLoop_length : ∀ (s : List Char) (d : Int),
    (BFDefaultInstructions.addLoop s d).1.length ≤ s.length := by
  intro s
  induction s with
  | nil => intro d; simp [BFDefaultInstructions.addLoop]
  | cons c cs ih =>
    intro d
    by_cases h : isPM c
    · simp only [BFDefaultInstructions.addLoop, h, if_true]
      exact le_trans (ih _) (by simp)
    · simp [BFDefaultInstructions.addLoop, h]

theorem moveLoop_length : ∀ (s : List Char) (d : Int),
    (BFDefaultInstructions.moveLoop s d).1.length ≤ s.length := by
  intro s
  induction s with
  | nil => intro d; simp [BFDefaultInstructions.moveLoop]
  | cons c cs ih =>
    intro d
    by_cases h : isLR c
    · simp only [BFDefaultInstructions.moveLoop, h, if_true]
      exact le_trans (ih _) (by simp)
    · simp [BFDefaultInstructions.moveLoop, h]

theorem addLoop_append : ∀ (r rest : List Char) (d : Int),
    (∀ c ∈ r, isPM c = true) → (∀ c, rest.head? = some c → isPM c = false) →
    BFDefaultInstructions.addLoop (r ++ rest) d = (rest, d + (r.map pmVal).sum) := by
  intro r
  induction r with
  | nil =>
    intro rest d _ hstop
    cases rest with
    | nil => simp [BFDefaultInstructions.addLoop]
    | cons c cs =>
      have hc := hstop c rfl
      simp [BFDefaultInstructions.addLoop, hc]
  | cons c r ih =>
    intro rest d hall hstop
    have hc : isPM c = true := hall c (by simp)
    have hstep : BFDefaultInstructions.addLoop ((c :: r) ++ rest) d =
        BFDefaultInstructions.addLoop (r ++ rest) (d + pmVal c) := by
      simp [BFDefaultInstructions.addLoop, hc]
    rw [hstep, ih rest (d + pmVal c) (fun x hx => hall x (by simp [hx])) hstop]
    simp [add_assoc]

theorem moveLoop_append : ∀ (r rest : List Char) (d : Int),
    (∀ c ∈ r, isLR c = true) → (∀ c, rest.head? = some c → isLR c = false) →
    BFDefaultInstructions.moveLoop (r ++ rest) d = (rest, d + (r.map lrVal).sum) := by
  intro r
  induction r with
  | nil =>
    intro rest d _ hstop
    cases rest with
    | nil => simp [BFDefaultInstructions.moveLoop]
    | cons c cs =>
      have hc := hstop c rfl
      simp [BFDefaultInstructions.moveLoop, hc]
  | cons c r ih =>
    intro rest d hall hstop
    have hc : isLR c = true := hall c (by simp)
    have hstep : BFDefaultInstructions.moveLoop ((c :: r) ++ rest) d =
        BFDefaultInstructions.moveLoop (r ++ rest) (d + lrVal c) := by
      simp [BFDefaultInstructions.moveLoop, hc]
    rw [hstep, ih rest (d + lrVal c) (fun x hx => hall x (by simp [hx])) hstop]
    simp [add_assoc]

theorem addLoop_decomp : ∀ (s : List Char) (d : Int),
    ∃ r : List Char, (∀ c ∈ r, isPM c = true) ∧
      s = r ++ (BFDefaultInstructions.addLoop s d).1 ∧
      (BFDefaultInstructions.addLoop s d).2 = d + (r.map pmVal).sum ∧
      (∀ c, (BFDefaultInstructions.addLoop s d).1.head? = some c → isPM c = false) := by
  intro s
  induction s with
  | nil =>
    intro d
    exact ⟨[], by simp, by simp [BFDefaultInstructions.addLoop],
           by simp [BFDefaultInstructions.addLoop], by simp [BFDefaultInstructions.addLoop]⟩
  | cons c cs ih =>
    intro d
    by_cases hc : isPM c
    · obtain ⟨r, hall, hdec, hsum, hstop⟩ := ih (d + pmVal c)
      have hl : BFDefaultInstructions.addLoop (c :: cs) d =
          BFDefaultInstructions.addLoop cs (d + pmVal c) := by
        simp [BFDefaultInstructions.addLoop, hc]
      refine ⟨c :: r, ?_, ?_, ?_, ?_⟩
      · intro x hx
        rcases List.mem_cons.mp hx with rfl | hx
        · exact hc
        · exact hall x hx
      · rw [hl, List.cons_append]
        exact congrArg (c :: ·) hdec
      · rw [hl, hsum]
        simp [add_assoc]
      · rw [hl]
        exact hstop
    · have hc' : isPM c = false := by simpa using hc
      refine ⟨[], by simp, ?_, ?_, ?_⟩ <;>
        simp [BFDefaultInstructions.addLoop, hc']

theorem moveLoop_decomp : ∀ (s : List Char) (d : Int),
    ∃ r : List Char, (∀ c ∈ r, isLR c = true) ∧
      s = r ++ (BFDefaultInstructions.moveLoop s d).1 ∧
      (BFDefaultInstructions.moveLoop s d).2 = d + (r.map lrVal).sum ∧
      (∀ c, (BFDefaultInstructions.moveLoop s d).1.head? = some c → isLR c = false) := by
  intro s
  induction s with
  | nil =>
    intro d
    exact ⟨[], by simp, by simp [BFDefaultInstructions.moveLoop],
           by simp [BFDefaultInstructions.moveLoop], by simp [BFDefaultInstructions.moveLoop]⟩
  | cons c cs ih =>
    intro d
    by_cases hc : isLR c
    · obtain ⟨r, hall, hdec, hsum, hstop⟩ := ih (d + lrVal c)
      have hl : BFDefaultInstructions.moveLoop (c :: cs) d =
          BFDefaultInstructions.moveLoop cs (d + lrVal c) := by
        simp [BFDefaultInstructions.moveLoop, hc]
      refine ⟨c :: r, ?_, ?_, ?_, ?_⟩
      · intro x hx
        rcases List.mem_cons.mp hx with rfl | hx
        · exact hc
        · exact hall x hx
      · rw [hl, List.cons_append]
        exact congrArg (c :: ·) hdec
      · rw [hl, hsum]
        simp [add_assoc]
      · rw [hl]
        exact hstop
    · have hc' : isLR c = false := by simpa using hc
      refine ⟨[], by simp, ?_, ?_, ?_⟩ <;>
        simp [BFDefaultInstructions.moveLoop, hc']

theorem pm_sum_eq_mergeDelta : ∀ r : List Char, (∀ c ∈ r, isPM c = true) →
    (r.map pmVal).sum = mergeDelta '+' r := by
  intro r
  induction r with
  | nil => intro h; simp [mergeDelta]
  | cons c cs ih =>
    intro h
    have hc := h c (by simp)
    have hcs := ih (fun x hx => h x (by simp [hx]))
    have hor : c = '+' ∨ c = '-' := by simpa [isPM] using hc
    rw [List.map_cons, List.sum_cons, hcs]
    rcases hor with rfl | rfl <;>
      · simp only [mergeDelta, pmVal, List.count_cons, List.length_cons]
        norm_num
        push_cast
        ring

theorem lr_sum_eq_mergeDelta : ∀ r : List Char, (∀ c ∈ r, isLR c = true) →
    (r.map lrVal).sum = mergeDelta '>' r := by
  intro r
  induction r with
  | nil => intro h; simp [mergeDelta]
  | cons c cs ih =>
    intro h
    have hc := h c (by simp)
    have hcs := ih (fun x hx => h x (by simp [hx]))
    have hor : c = '<' ∨ c = '>' := by simpa [isLR] using hc
    rw [List.map_cons, List.sum_cons, hcs]
    rcases hor with rfl | rfl <;>
      · simp only [mergeDelta, lrVal, List.count_cons, List.length_cons]
        norm_num
        push_cast
        ring

/-- Claim C7: for every maximal run `r` of `+`/`-` (respectively `<`/`>`)
characters — nonempty, all in the family, with the following character not
in the family — the merging rule consumes exactly the run and produces
exactly one instruction whose signed delta is `k - (n - k)` (`k` = number
of `+` resp. `>` characters, `n` = run length), except that a run whose
delta sums to zero produces no instruction. -/
theorem c7_run_length_merge :
    (∀ r rest : List Char, r ≠ [] → (∀ c ∈ r, isPM c = true) →
      (∀ c, rest.head? = some c → isPM c = false) →
      BFDefaultInstructions.add (r ++ rest) =
        (if mergeDelta '+' r = 0 then none
         else some (.add (mergeDelta '+' r)), rest)) ∧
    (∀ r rest : List Char, r ≠ [] → (∀ c ∈ r, isLR c = true) →
      (∀ c, rest.head? = some c → isLR c = false) →
      BFDefaultInstructions.move_ptr (r ++ rest) =
        (if mergeDelta '>' r = 0 then none
         else some (.move_ptr (mergeDelta '>' r)), rest)) := by
  constructor
  · intro r rest _ hall hstop
    have hl := addLoop_append r rest 0 hall hstop
    have hs := pm_sum_eq_mergeDelta r hall
    simp only [BFDefaultInstructions.add, hl, hs, zero_add]
    by_cases hz : mergeDelta '+' r = 0 <;> simp [hz]
  · intro r rest _ hall hstop
    have hl := moveLoop_append r rest 0 hall hstop
    have hs := lr_sum_eq_mergeDelta r hall
    simp only [BFDefaultInstructions.move_ptr, hl, hs, zero_add]
    by_cases hz : mergeDelta '>' r = 0 <;> simp [hz]

theorem c7_witness :
    BFDefaultInstructions.add (['+', '+', '-'] ++ ['x']) =
      (if mergeDelta '+' ['+', '+', '-'] = 0 then none
       else some (.add (mergeDelta '+' ['+', '+', '-'])), ['x']) ∧
    BFDefaultInstructions.move_ptr (['>', '<', '>'] ++ [']']) =
      (if mergeDelta '>' ['>', '<', '>'] = 0 then none
       else some (.move_ptr (mergeDelta '>' ['>', '<', '>'])), [']']) :=
  ⟨c7_run_length_merge.1 ['+', '+', '-'] ['x'] (by decide) (by decide)
      (by intro c hc; cases hc; decide),
   c7_run_length_merge.2 ['>', '<', '>'] [']'] (by decide) (by decide)
      (by intro c hc; cases hc; decide)⟩

/-! ### Claim C8: compilation terminates within `length` dispatch steps -/

theorem add_snd_eq (s : List Char) :
    (BFDefaultInstructions.add s).2 = (BFDefaultInstructions.addLoop s 0).1 := by
  simp only [BFDefaultInstructions.add]
  split <;> rfl

theorem move_snd_eq (s : List Char) :
    (BFDefaultInstructions.move_ptr s).2 = (BFDefaultInstructions.moveLoop s 0).1 := by
  simp only [BFDefaultInstructions.move_ptr]
  split <;> rfl

theorem add_rest_length (c : Char) (cs : List Char) (hc : isPM c = true) :
    (BFDefaultInstructions.add (c :: cs)).2.length ≤ cs.length := by
  rw [add_snd_eq]
  have h1 : BFDefaultInstructions.addLoop (c :: cs) 0 =
      BFDefaultInstructions.addLoop cs (0 + pmVal c) := by
    simp [BFDefaultInstructions.addLoop, hc]
  rw [h1]
  exact addLoop_length cs (0 + pmVal c)

theorem move_rest_length (c : Char) (cs : List Char) (hc : isLR c = true) :
    (BFDefaultInstructions.move_ptr (c :: cs)).2.length ≤ cs.length := by
  rw [move_snd_eq]
  have h1 : BFDefaultInstructions.moveLoop (c :: cs) 0 =
      BFDefaultInstructions.moveLoop cs (0 + lrVal c) := by
    simp [BFDefaultInstructions.moveLoop, hc]
  rw [h1]
  exact moveLoop_length cs (0 + lrVal c)

theorem compileAux_isSome : ∀ (fuel : Nat) (s : List Char) (o : Nat)
    (insts : List Inst), s.length < fuel →
    (compileAux o fuel s insts).isSome = true := by
  intro fuel
  induction fuel with
  | zero => intro s o insts h; exact absurd h (Nat.not_lt_zero _)
  | succ g ih =>
    intro s o insts h
    cases s with
    | nil => rw [compileAux_nil]; rfl
    | cons c cs =>
      have hcs : cs.length < g := Nat.lt_of_succ_lt_succ (by simpa using h)
      by_cases h1 : isPM c
      · rw [compileAux_pm o g c cs insts h1]
        have hrl := add_rest_length c cs h1
        rcases hadd : BFDefaultInstructions.add (c :: cs) with ⟨oi, rest⟩
        rw [hadd] at hrl
        cases oi with
        | none =>
          show (compileAux o g rest insts).isSome = true
          exact ih rest o insts (lt_of_le_of_lt hrl hcs)
        | some i =>
          show (compileAux o g rest (insts ++ [i])).isSome = true
          exact ih rest o (insts ++ [i]) (lt_of_le_of_lt hrl hcs)
      · have h1' : isPM c = false := by simpa using h1
        by_cases h2 : isLR c
        · rw [compileAux_lr o g c cs insts h1' h2]
          have hrl := move_rest_length c cs h2
          rcases hmv : BFDefaultInstructions.move_ptr (c :: cs) with ⟨oi, rest⟩
          rw [hmv] at hrl
          cases oi with
          | none =>
            show (compileAux o g rest insts).isSome = true
            exact ih rest o insts (lt_of_le_of_lt hrl hcs)
          | some i =>
            show (compileAux o g rest (insts ++ [i])).isSome = true
            exact ih rest o (insts ++ [i]) (lt_of_le_of_lt hrl hcs)
        · have h2' : isLR c = false := by simpa using h2
          by_cases h3 : c = '['
          · subst h3
            rw [compileAux_open]
            exact ih cs o (insts ++ [.open_loop none]) hcs
          · by_cases h4 : c = ']'
            · subst h4
              rw [compileAux_close]
              cases hcl : BFDefaultInstructions.close_loop insts with
              | none => rfl
              | some insts2 =>
                show (compileAux o g cs insts2).isSome = true
                exact ih cs o insts2 hcs
            · by_cases h5 : c = ','
              · subst h5
                rw [compileAux_getch]
                exact ih cs o (insts ++ [.getch]) hcs
              · by_cases h6 : c = '.'
                · subst h6
                  rw [compileAux_putch]
                  exact ih cs o (insts ++ [.putch]) hcs
                · have hbf : isBFChar c = false := by
                    simp [isBFChar, h1', h2', h3, h4, h5, h6]
                  rw [compileAux_skip o g c cs insts hbf]
                  exact ih cs o insts hcs

/-- Claim C8: for every finite source, the compile dispatch loop reaches
the end of the source within `length` dispatch steps — fuel exceeding the
source length never runs out, because every dispatch (merged run,
single-character rule, or skipped noise character) consumes at least one
source character. -/
theorem c8_compile_terminates : ∀ (o fuel : Nat) (s : List Char)
    (insts : List Inst), s.length < fuel →
    ∃ r, compileAux o fuel s insts = some r := by
  intro o fuel s insts h
  exact Option.isSome_iff_exists.mp (compileAux_isSome fuel s o insts h)

theorem c8_witness :
    ∃ r, compileAux 3 4 ['+', '[', ']'] [] = some r :=
  c8_compile_terminates 3 4 ['+', '[', ']'] [] (by decide)

/-- The canonical fuel is adequate: `compile` is the payload of the
fuelled loop. -/
theorem compileAux_eq_compile (s : List Char) :
    compileAux s.length (s.length + 1) s [] = some (compile s) := by
  obtain ⟨r, hr⟩ := Option.isSome_iff_exists.mp
    (compileAux_isSome (s.length + 1) s s.length [] (Nat.lt_succ_self _))
  unfold compile
  rw [hr]
  rfl

/-! ### Bracket structure of the compiled sequence (claims C1, C9, C10) -/

theorem bracketState_append (l : List Inst) (x : Inst) :
    ∀ (n : Nat) (sp : List Nat × List (Nat × Nat)),
    bracketState (l ++ [x]) n sp = bracketStep x (n + l.length) (bracketState l n sp) := by
  induction l with
  | nil => intro n sp; simp [bracketState]
  | cons y l ih =>
    intro n sp
    have h1 : (y :: l) ++ [x] = y :: (l ++ [x]) := rfl
    rw [h1]
    show bracketState (l ++ [x]) (n + 1) (bracketStep y n sp) = _
    rw [ih (n + 1) (bracketStep y n sp)]
    have h2 : n + 1 + l.length = n + (y :: l).length := by
      simp [List.length_cons]
      ring
    rw [h2]
    rfl

theorem bracket_append_other (l : List Inst) (x : Inst) (ho : x.isOpen = false)
    (hc : x.isClose = false) :
    openStack (l ++ [x]) = openStack l ∧ matchPairs (l ++ [x]) = matchPairs l := by
  have h := bracketState_append l x 0 ([], [])
  cases x <;> simp_all [openStack, matchPairs, bracketStep, Inst.isOpen, Inst.isClose]

theorem bracket_append_open (l : List Inst) (c : Option Nat) :
    openStack (l ++ [.open_loop c]) = l.length :: openStack l ∧
    matchPairs (l ++ [.open_loop c]) = matchPairs l := by
  have h := bracketState_append l (.open_loop c) 0 ([], [])
  rcases hb : bracketState l 0 ([], []) with ⟨s, ps⟩
  rw [hb] at h
  constructor <;> simp [openStack, matchPairs, h, bracketStep, hb]

theorem bracket_append_close (l : List Inst) (t : Int) :
    openStack (l ++ [.close_loop t]) = (openStack l).tail ∧
    matchPairs (l ++ [.close_loop t]) =
      (match openStack l with
       | [] => matchPairs l
       | m :: _ => (m, l.length) :: matchPairs l) := by
  have h := bracketState_append l (.close_loop t) 0 ([], [])
  rcases hb : bracketState l 0 ([], []) with ⟨s, ps⟩
  rw [hb] at h
  have hs : openStack l = s := by simp [openStack, hb]
  have hp : matchPairs l = ps := by simp [matchPairs, hb]
  cases s with
  | nil => constructor <;> simp [openStack, matchPairs, h, bracketStep, hs, hp, hb]
  | cons m s2 =>
    constructor <;> simp [openStack, matchPairs, h, bracketStep, hs, hp, hb]

theorem bracketState_set_open (l : List Inst) :
    ∀ (m n : Nat) (sp : List Nat × List (Nat × Nat)) (c c' : Option Nat),
    l.get? m = some (.open_loop c) →
    bracketState (l.set m (.open_loop c')) n sp = bracketState l n sp := by
  induction l with
  | nil => intro m n sp c c' _; rfl
  | cons y l ih =>
    intro m n sp c c' h
    cases m with
    | zero =>
      have hy : y = .open_loop c := by simpa using h
      subst hy
      show bracketState (.open_loop c' :: l) n sp = bracketState (.open_loop c :: l) n sp
      rcases sp with ⟨s, ps⟩
      rfl
    | succ k =>
      show bracketState (y :: l.set k (.open_loop c')) n sp = _
      show bracketState (l.set k (.open_loop c')) (n + 1) (bracketStep y n sp) = _
      rw [ih k (n + 1) (bracketStep y n sp) c c' (by simpa using h)]
      rfl

theorem openStack_set_open (l : List Inst) (m : Nat) (c c' : Option Nat)
    (h : l.get? m = some (.open_loop c)) :
    openStack (l.set m (.open_loop c')) = openStack l ∧
    matchPairs (l.set m (.open_loop c')) = matchPairs l := by
  constructor <;>
    simp [openStack, matchPairs, bracketState_set_open l m 0 ([], []) c c' h]

/-! ### The backward scan finds the top of the unmatched-open stack -/

theorem scanBack_append (l : List Inst) (x : Inst) :
    ∀ (n : Nat) (d : Int), n ≤ l.length →
    BFDefaultInstructions.scanBack (l ++ [x]) n d =
      BFDefaultInstructions.scanBack l n d := by
  intro n
  induction n with
  | zero => intro d _; rfl
  | succ k ih =>
    intro d h
    have hk : k < l.length := h
    simp only [BFDefaultInstructions.scanBack]
    by_cases hd : 0 < d
    · rw [if_pos hd, if_pos hd]
      have hg : (l ++ [x]).getD k default = l.getD k default := by
        rw [List.getD_eq_getElem?_getD, List.getD_eq_getElem?_getD,
            List.getElem?_append, if_pos hk]
      rw [hg]
      exact ih _ (le_of_lt hk)
    · rw [if_neg hd, if_neg hd]

theorem scanBack_depth_zero (l : List Inst) :
    ∀ n : Nat, BFDefaultInstructions.scanBack l n 0 = ((n : Int) - 1, 0) := by
  intro n
  cases n with
  | zero => norm_num [BFDefaultInstructions.scanBack]
  | succ k =>
    simp only [BFDefaultInstructions.scanBack]
    rw [if_neg (lt_irrefl (0 : Int))]
    have h1 : ((k + 1 : Nat) : Int) - 1 = (k : Int) := by push_cast; ring
    rw [h1]

/-- The backward scan of `close_loop`, started with depth `d + 1`, stops
one below the `(d+1)`-st unmatched open (counting from the innermost), and
exhausts the sequence with positive depth when there are not that many
unmatched opens.  With `d = 0` this is exactly the call `close_loop`
makes: the scan finds the innermost unmatched open. -/
theorem scanBack_stack : ∀ (l : List Inst) (d : Nat),
    (∀ m, (openStack l).get? d = some m →
      BFDefaultInstructions.scanBack l l.length ((d : Int) + 1) = ((m : Int) - 1, 0)) ∧
    ((openStack l).get? d = none →
      ∃ d2 : Int, 0 < d2 ∧
        BFDefaultInstructions.scanBack l l.length ((d : Int) + 1) = (-1, d2)) := by
  intro l
  induction l using List.reverseRecOn with
  | nil =>
    intro d
    constructor
    · intro m hm
      simp [openStack, bracketState] at hm
    · intro _
      exact ⟨(d : Int) + 1, by positivity, rfl⟩
  | append_singleton l x ih =>
    intro d
    have hget : (l ++ [x]).getD l.length default = x := by
      rw [List.getD_eq_getElem?_getD, List.getElem?_append, if_neg (lt_irrefl _)]
      simp
    have hstep : ∀ dep : Int, 0 < dep →
        BFDefaultInstructions.scanBack (l ++ [x]) (l ++ [x]).length dep =
          BFDefaultInstructions.scanBack (l ++ [x]) l.length
            (dep - (if x.isOpen then 1 else 0) + (if x.isClose then 1 else 0)) := by
      intro dep hdep
      have hlen : (l ++ [x]).length = l.length + 1 := by simp
      rw [hlen]
      simp only [BFDefaultInstructions.scanBack]
      rw [if_pos hdep, hget]
    have htail : ∀ (s : List Nat) (n : Nat), s.tail.get? n = s.get? (n + 1) := by
      intro s n; cases s <;> simp
    have hother : x.isOpen = false → x.isClose = false →
        (∀ m, (openStack (l ++ [x])).get? d = some m →
          BFDefaultInstructions.scanBack (l ++ [x]) (l ++ [x]).length ((d : Int) + 1) =
            ((m : Int) - 1, 0)) ∧
        ((openStack (l ++ [x])).get? d = none →
          ∃ d2 : Int, 0 < d2 ∧
            BFDefaultInstructions.scanBack (l ++ [x]) (l ++ [x]).length ((d : Int) + 1) =
              (-1, d2)) := by
      intro hxo hxc
      have hos := (bracket_append_other l x hxo hxc).1
      have hdep : ((d : Int) + 1) - (if x.isOpen then 1 else 0) +
          (if x.isClose then 1 else 0) = (d : Int) + 1 := by
        simp [hxo, hxc]
      constructor
      · intro m hm
        rw [hos] at hm
        rw [hstep _ (by positivity), hdep, scanBack_append l x l.length _ le_rfl]
        exact (ih d).1 m hm
      · intro hm
        rw [hos] at hm
        obtain ⟨d2, hd2, hsc⟩ := (ih d).2 hm
        refine ⟨d2, hd2, ?_⟩
        rw [hstep _ (by positivity), hdep, scanBack_append l x l.length _ le_rfl]
        exact hsc
    cases x with
    | add q => exact hother rfl rfl
    | move_ptr q => exact hother rfl rfl
    | getch => exact hother rfl rfl
    | putch => exact hother rfl rfl
    | open_loop c =>
      have hos := (bracket_append_open l c).1
      cases d with
      | zero =>
        constructor
        · intro m hm
          rw [hos] at hm
          have hm' : l.length = m := by simpa using hm
          subst hm'
          have hdep0 : ((0 : Nat) : Int) + 1 -
              (if (Inst.open_loop c).isOpen then 1 else 0) +
              (if (Inst.open_loop c).isClose then 1 else 0) = 0 := by
            simp [Inst.isOpen, Inst.isClose]
          rw [hstep _ (by positivity), hdep0]
          exact scanBack_depth_zero (l ++ [.open_loop c]) l.length
        · intro hm
          rw [hos] at hm
          simp at hm
      | succ k =>
        have hdepk : ((k + 1 : Nat) : Int) + 1 -
            (if (Inst.open_loop c).isOpen then 1 else 0) +
            (if (Inst.open_loop c).isClose then 1 else 0) = (k : Int) + 1 := by
          simp [Inst.isOpen, Inst.isClose]
        constructor
        · intro m hm
          rw [hos] at hm
          have hm' : (openStack l).get? k = some m := by simpa using hm
          rw [hstep _ (by positivity), hdepk,
              scanBack_append l _ l.length _ le_rfl]
          exact (ih k).1 m hm'
        · intro hm
          rw [hos] at hm
          have hm' : (openStack l).get? k = none := by simpa using hm
          obtain ⟨d2, hd2, hsc⟩ := (ih k).2 hm'
          refine ⟨d2, hd2, ?_⟩
          rw [hstep _ (by positivity), hdepk,
              scanBack_append l _ l.length _ le_rfl]
          exact hsc
    | close_loop t =>
      have hos := (bracket_append_close l t).1
      have hdep : ((d : Int) + 1) - (if (Inst.close_loop t).isOpen then 1 else 0) +
          (if (Inst.close_loop t).isClose then 1 else 0) = ((d + 1 : Nat) : Int) + 1 := by
        simp [Inst.isOpen, Inst.isClose]
      constructor
      · intro m hm
        rw [hos, htail] at hm
        rw [hstep _ (by positivity), hdep, scanBack_append l _ l.length _ le_rfl]
        exact (ih (d + 1)).1 m hm
      · intro hm
        rw [hos, htail] at hm
        obtain ⟨d2, hd2, hsc⟩ := (ih (d + 1)).2 hm
        refine ⟨d2, hd2, ?_⟩
        rw [hstep _ (by positivity), hdep, scanBack_append l _ l.length _ le_rfl]
        exact hsc

/-- Characterisation of `close_loop`: with at least one unmatched open it
back-fills the innermost one (index `m`, the top of the forward-reading
stack) with the about-to-be-appended close's index and appends the close
carrying captured target `m - 1`; with no unmatched open it reports the
unopened-loop compile error. -/
theorem close_loop_spec (l : List Inst) :
    (∀ m s2, openStack l = m :: s2 →
      BFDefaultInstructions.close_loop l =
        some ((l.set m (.open_loop (some l.length))) ++
              [.close_loop ((m : Int) - 1)])) ∧
    (openStack l = [] → BFDefaultInstructions.close_loop l = none) := by
  constructor
  · intro m s2 hs
    have h1 := (scanBack_stack l 0).1 m (by rw [hs]; rfl)
    have hc : ((0 : Nat) : Int) + 1 = 1 := by norm_num
    rw [hc] at h1
    simp only [BFDefaultInstructions.close_loop, h1]
    rw [if_neg (lt_irrefl 0)]
    have h2 : ((m : Int) - 1 + 1).toNat = m := by omega
    rw [h2]
  · intro hs
    obtain ⟨d2, hd2, hsc⟩ := (scanBack_stack l 0).2 (by rw [hs]; rfl)
    have hc : ((0 : Nat) : Int) + 1 = 1 := by norm_num
    rw [hc] at hsc
    simp only [BFDefaultInstructions.close_loop, hsc]
    rw [if_pos hd2]

/-! ### The compiler invariant and its preservation -/

theorem get?_some_lt {α : Type} {l : List α} {n : Nat} {a : α}
    (h : l.get? n = some a) : n < l.length := by
  by_contra hn
  rw [List.get?_eq_none.mpr (le_of_not_lt hn)] at h
  cases h

theorem get?_getD {α : Type} [Inhabited α] {l : List α} {n : Nat}
    (h : n < l.length) : l.get? n = some (l.getD n default) := by
  rw [List.getD_eq_getElem?_getD, ← List.get?_eq_getElem?]
  cases hg : l.get? n with
  | none => exact absurd (List.get?_eq_none.mp hg) (not_le.mpr h)
  | some a => rfl

theorem getD_of_get? {α : Type} [Inhabited α] {l : List α} {n : Nat} {a : α}
    (h : l.get? n = some a) : l.getD n default = a := by
  rw [List.getD_eq_getElem?_getD, ← List.get?_eq_getElem?, h]
  rfl

theorem compileInv_nil : compileInv [] := by
  refine ⟨?_, ?_, ?_, ?_, ?_, ?_⟩ <;>
    simp [openStack, matchPairs, bracketState, List.Sorted]

theorem compileInv_append_other (l : List Inst) (x : Inst) (ho : x.isOpen = false)
    (hc : x.isClose = false) (h : compileInv l) : compileInv (l ++ [x]) := by
  obtain ⟨h1, h2, h3, h4, h5, h6⟩ := h
  obtain ⟨hs, hp⟩ := bracket_append_other l x ho hc
  refine ⟨?_, ?_, ?_, ?_, ?_, ?_⟩
  · intro i hi
    rw [hs] at hi
    rw [List.get?_append (h6 i hi)]
    exact h1 i hi
  · intro p hp'
    rw [hp] at hp'
    obtain ⟨ha, hb⟩ := h2 p hp'
    exact ⟨by rw [List.get?_append (get?_some_lt ha)]; exact ha,
           by rw [List.get?_append (get?_some_lt hb)]; exact hb⟩
  · intro i j hij
    rw [hp]
    have hi := get?_some_lt hij
    rcases Nat.lt_or_ge i l.length with hlt' | hge
    · rw [List.get?_append hlt'] at hij
      exact h3 i j hij
    · have hieq : i = l.length := by
        simp only [List.length_append, List.length_cons, List.length_nil] at hi
        omega
      subst hieq
      rw [List.get?_concat_length] at hij
      injection hij with hx
      rw [hx] at ho
      simp [Inst.isOpen] at ho
  · intro j t hjt
    rw [hp]
    have hj := get?_some_lt hjt
    rcases Nat.lt_or_ge j l.length with hlt' | hge
    · rw [List.get?_append hlt'] at hjt
      exact h4 j t hjt
    · have hjeq : j = l.length := by
        simp only [List.length_append, List.length_cons, List.length_nil] at hj
        omega
      subst hjeq
      rw [List.get?_concat_length] at hjt
      injection hjt with hx
      rw [hx] at hc
      simp [Inst.isClose] at hc
  · rw [hs]; exact h5
  · intro i hi
    rw [hs] at hi
    have := h6 i hi
    simp only [List.length_append, List.length_cons, List.length_nil]
    omega

theorem compileInv_append_open (l : List Inst) (h : compileInv l) :
    compileInv (l ++ [.open_loop none]) := by
  obtain ⟨h1, h2, h3, h4, h5, h6⟩ := h
  obtain ⟨hs, hp⟩ := bracket_append_open l none
  refine ⟨?_, ?_, ?_, ?_, ?_, ?_⟩
  · intro i hi
    rw [hs] at hi
    rcases List.mem_cons.mp hi with rfl | hi'
    · exact List.get?_concat_length l _
    · rw [List.get?_append (h6 i hi')]
      exact h1 i hi'
  · intro p hp'
    rw [hp] at hp'
    obtain ⟨ha, hb⟩ := h2 p hp'
    exact ⟨by rw [List.get?_append (get?_some_lt ha)]; exact ha,
           by rw [List.get?_append (get?_some_lt hb)]; exact hb⟩
  · intro i j hij
    rw [hp]
    have hi := get?_some_lt hij
    rcases Nat.lt_or_ge i l.length with hlt' | hge
    · rw [List.get?_append hlt'] at hij
      exact h3 i j hij
    · have hieq : i = l.length := by
        simp only [List.length_append, List.length_cons, List.length_nil] at hi
        omega
      subst hieq
      rw [List.get?_concat_length] at hij
      injection hij with hx
      exact absurd hx (by simp)
  · intro j t hjt
    rw [hp]
    have hj := get?_some_lt hjt
    rcases Nat.lt_or_ge j l.length with hlt' | hge
    · rw [List.get?_append hlt'] at hjt
      exact h4 j t hjt
    · have hjeq : j = l.length := by
        simp only [List.length_append, List.length_cons, List.length_nil] at hj
        omega
      subst hjeq
      rw [List.get?_concat_length] at hjt
      injection hjt with hx
      exact absurd hx (by simp)
  · rw [hs]
    exact List.sorted_cons.mpr ⟨fun b hb => h6 b hb, h5⟩
  · intro i hi
    rw [hs] at hi
    simp only [List.length_append, List.length_cons, List.length_nil]
    rcases List.mem_cons.mp hi with rfl | hi'
    · omega
    · have := h6 i hi'
      omega

theorem compileInv_close (l : List Inst) (m : Nat) (s2 : List Nat)
    (hst : openStack l = m :: s2) (h : compileInv l) :
    compileInv ((l.set m (.open_loop (some l.length))) ++
                [.close_loop ((m : Int) - 1)]) := by
  obtain ⟨h1, h2, h3, h4, h5, h6⟩ := h
  have hm_mem : m ∈ openStack l := by rw [hst]; exact List.mem_cons_self m s2
  have hm_none : l.get? m = some (.open_loop none) := h1 m hm_mem
  have hm_lt : m < l.length := h6 m hm_mem
  have hsort : (m :: s2).Sorted (· > ·) := by rw [← hst]; exact h5
  obtain ⟨hs2', hp2'⟩ := openStack_set_open l m none (some l.length) hm_none
  obtain ⟨hs3, hp3⟩ := bracket_append_close
    (l.set m (.open_loop (some l.length))) ((m : Int) - 1)
  rw [hs2', hst] at hs3
  rw [hs2', hst, hp2'] at hp3
  have hlen2 : (l.set m (.open_loop (some l.length))).length = l.length := by simp
  rw [hlen2] at hp3
  -- get? facts
  have hg_m : (l.set m (.open_loop (some l.length))).get? m =
      some (.open_loop (some l.length)) := List.get?_set_eq_of_lt _ hm_lt
  have hg_ne : ∀ i, i ≠ m → (l.set m (.open_loop (some l.length))).get? i =
      l.get? i := fun i hi => List.get?_set_ne _ _ (Ne.symm hi)
  have hg2 : ∀ i, i < l.length →
      ((l.set m (.open_loop (some l.length))) ++
        [Inst.close_loop ((m : Int) - 1)]).get? i =
      (l.set m (.open_loop (some l.length))).get? i := by
    intro i hi
    exact List.get?_append (by rw [hlen2]; exact hi)
  have hg_last : ((l.set m (.open_loop (some l.length))) ++
      [Inst.close_loop ((m : Int) - 1)]).get? l.length =
      some (.close_loop ((m : Int) - 1)) := by
    have hcl := List.get?_concat_length (l.set m (.open_loop (some l.length)))
      (Inst.close_loop ((m : Int) - 1))
    rwa [hlen2] at hcl
  have hlen3 : ((l.set m (.open_loop (some l.length))) ++
      [Inst.close_loop ((m : Int) - 1)]).length = l.length + 1 := by simp
  have hpair_ne_m : ∀ p ∈ matchPairs l, p.1 ≠ m ∧ p.2 ≠ m := by
    intro p hp'
    obtain ⟨ha, hb⟩ := h2 p hp'
    constructor
    · intro he
      rw [he, hm_none] at ha
      simp at ha
    · intro he
      rw [he, hm_none] at hb
      simp at hb
  refine ⟨?_, ?_, ?_, ?_, ?_, ?_⟩
  · intro i hi
    rw [hs3] at hi
    have him : i ∈ openStack l := by rw [hst]; exact List.mem_cons_of_mem m hi
    have hlt := h6 i him
    have hne : i ≠ m := by
      have : m > i := (List.sorted_cons.mp hsort).1 i hi
      omega
    rw [hg2 i hlt, hg_ne i hne]
    exact h1 i him
  · intro p hp'
    rw [hp3] at hp'
    rcases List.mem_cons.mp hp' with rfl | hp''
    · refine ⟨?_, ?_⟩
      · rw [hg2 m hm_lt, hg_m]
      · rw [hg_last]
    · obtain ⟨ha, hb⟩ := h2 p hp''
      obtain ⟨p1ne, p2ne⟩ := hpair_ne_m p hp''
      refine ⟨?_, ?_⟩
      · rw [hg2 _ (get?_some_lt ha), hg_ne _ p1ne]; exact ha
      · rw [hg2 _ (get?_some_lt hb), hg_ne _ p2ne]; exact hb
  · intro i j hij
    rw [hp3]
    have hi := get?_some_lt hij
    rw [hlen3] at hi
    rcases Nat.lt_or_ge i l.length with hlt' | hge
    · rw [hg2 i hlt'] at hij
      by_cases hne : i = m
      · subst hne
        rw [hg_m] at hij
        have : l.length = j := by simpa using hij
        subst this
        exact List.mem_cons_self _ _
      · rw [hg_ne i hne] at hij
        exact List.mem_cons_of_mem _ (h3 i j hij)
    · have hieq : i = l.length := by omega
      subst hieq
      rw [hg_last] at hij
      simp at hij
  · intro j t hjt
    rw [hp3]
    have hj := get?_some_lt hjt
    rw [hlen3] at hj
    rcases Nat.lt_or_ge j l.length with hlt' | hge
    · rw [hg2 j hlt'] at hjt
      have hne : j ≠ m := by
        intro he
        rw [he, hg_m] at hjt
        simp at hjt
      rw [hg_ne j hne] at hjt
      obtain ⟨i, hpair, ht⟩ := h4 j t hjt
      exact ⟨i, List.mem_cons_of_mem _ hpair, ht⟩
    · have hjeq : j = l.length := by omega
      subst hjeq
      rw [hg_last] at hjt
      have : t = (m : Int) - 1 := by simpa using hjt.symm
      exact ⟨m, List.mem_cons_self _ _, this⟩
  · rw [hs3]
    exact (List.sorted_cons.mp hsort).2
  · intro i hi
    rw [hs3] at hi
    have him : i ∈ openStack l := by rw [hst]; exact List.mem_cons_of_mem m hi
    have := h6 i him
    rw [hlen3]
    omega

theorem add_fst_shape (s : List Char) (i : Inst) (rest : List Char)
    (h : BFDefaultInstructions.add s = (some i, rest)) : ∃ d : Int, i = .add d := by
  simp only [BFDefaultInstructions.add] at h
  by_cases hz : (BFDefaultInstructions.addLoop s 0).2 = 0
  · rw [if_pos hz] at h
    injection h with h1 h2
    exact absurd h1 (by simp)
  · rw [if_neg hz] at h
    injection h with h1 h2
    exact ⟨_, (Option.some.inj h1).symm⟩

theorem move_fst_shape (s : List Char) (i : Inst) (rest : List Char)
    (h : BFDefaultInstructions.move_ptr s = (some i, rest)) :
    ∃ d : Int, i = .move_ptr d := by
  simp only [BFDefaultInstructions.move_ptr] at h
  by_cases hz : (BFDefaultInstructions.moveLoop s 0).2 = 0
  · rw [if_pos hz] at h
    injection h with h1 h2
    exact absurd h1 (by simp)
  · rw [if_neg hz] at h
    injection h with h1 h2
    exact ⟨_, (Option.some.inj h1).symm⟩

/-- The compiler invariant holds of every successfully compiled result
(main induction over the dispatch loop). -/
theorem compileAux_inv : ∀ (fuel : Nat) (s : List Char) (o : Nat)
    (insts prog : List Inst), compileInv insts →
    compileAux o fuel s insts = some (.ok prog) → compileInv prog := by
  intro fuel
  induction fuel with
  | zero => intro s o insts prog _ h; cases h
  | succ g ih =>
    intro s o insts prog hinv h
    cases s with
    | nil =>
      rw [compileAux_nil] at h
      have : insts = prog := by simpa using h
      subst this
      exact hinv
    | cons c cs =>
      by_cases h1 : isPM c
      · rw [compileAux_pm o g c cs insts h1] at h
        rcases hadd : BFDefaultInstructions.add (c :: cs) with ⟨oi, rest⟩
        rw [hadd] at h
        cases oi with
        | none => exact ih rest o insts prog hinv h
        | some i =>
          obtain ⟨d, rfl⟩ := add_fst_shape _ _ _ hadd
          exact ih rest o _ prog (compileInv_append_other insts (.add d) rfl rfl hinv) h
      · have h1' : isPM c = false := by simpa using h1
        by_cases h2 : isLR c
        · rw [compileAux_lr o g c cs insts h1' h2] at h
          rcases hmv : BFDefaultInstructions.move_ptr (c :: cs) with ⟨oi, rest⟩
          rw [hmv] at h
          cases oi with
          | none => exact ih rest o insts prog hinv h
          | some i =>
            obtain ⟨d, rfl⟩ := move_fst_shape _ _ _ hmv
            exact ih rest o _ prog
              (compileInv_append_other insts (.move_ptr d) rfl rfl hinv) h
        · have h2' : isLR c = false := by simpa using h2
          by_cases h3 : c = '['
          · subst h3
            rw [compileAux_open] at h
            exact ih cs o _ prog (compileInv_append_open insts hinv) h
          · by_cases h4 : c = ']'
            · subst h4
              rw [compileAux_close] at h
              cases hcl : BFDefaultInstructions.close_loop insts with
              | none =>
                rw [hcl] at h
                simp at h
              | some insts2 =>
                rw [hcl] at h
                cases hst : openStack insts with
                | nil =>
                  rw [(close_loop_spec insts).2 hst] at hcl
                  cases hcl
                | cons m s2 =>
                  rw [(close_loop_spec insts).1 m s2 hst] at hcl
                  have he : insts2 = (insts.set m (.open_loop (some insts.length))) ++
                      [.close_loop ((m : Int) - 1)] := (Option.some.inj hcl).symm
                  subst he
                  exact ih cs o _ prog (compileInv_close insts m s2 hst hinv) h
            · by_cases h5 : c = ','
              · subst h5
                rw [compileAux_getch] at h
                exact ih cs o _ prog
                  (compileInv_append_other insts .getch rfl rfl hinv) h
              · by_cases h6 : c = '.'
                · subst h6
                  rw [compileAux_putch] at h
                  exact ih cs o _ prog
                    (compileInv_append_other insts .putch rfl rfl hinv) h
                · have hbf : isBFChar c = false := by
                    simp [isBFChar, h1', h2', h3, h4, h5, h6]
                  rw [compileAux_skip o g c cs insts hbf] at h
                  exact ih cs o insts prog hinv h

/-- Every successful `compile` result satisfies the invariant. -/
theorem compile_inv (s : List Char) (prog : List Inst)
    (h : compile s = .ok prog) : compileInv prog := by
  have hx : compileAux s.length (s.length + 1) s [] = some (.ok prog) := by
    rw [compileAux_eq_compile s, h]
  exact compileAux_inv (s.length + 1) s s.length [] prog compileInv_nil hx

/-- Amended claim C1: for every source that compiles successfully, each
matched (open, close) pair of the program satisfies: the open's resolved
jump target is the index of its matching close, while the close's captured
jump target is the index of its matching open MINUS ONE.  Consequently a
taken LoopOpen jump (post-increment included) lands one instruction after
the matching close, while a taken LoopClose jump lands AT the matching
open itself — which re-tests the (unchanged, nonzero) cell and falls
through to the loop body's first instruction on the next step. -/
theorem c1_amended : ∀ (s : List Char) (prog : List Inst), compile s = .ok prog →
    ∀ i j : Nat, (i, j) ∈ matchPairs prog →
      prog.get? i = some (.open_loop (some j)) ∧
      prog.get? j = some (.close_loop ((i : Int) - 1)) ∧
      (∀ vm : BFVM, vm.code_ptr = (i : Int) → memGet vm = 0 →
        vmStep prog vm = .ok { vm with code_ptr := (j : Int) + 1 }) ∧
      (∀ vm : BFVM, vm.code_ptr = (j : Int) → memGet vm ≠ 0 →
        vmStep prog vm = .ok { vm with code_ptr := ((i : Int) - 1) + 1 }) := by
  intro s prog hc i j hij
  have hinv := compile_inv s prog hc
  obtain ⟨ha, hb⟩ := hinv.2.1 (i, j) hij
  refine ⟨ha, hb, ?_, ?_⟩
  · intro vm hcp hmz
    have hfetch : prog.getD vm.code_ptr.toNat default = .open_loop (some j) := by
      rw [hcp, Int.toNat_natCast]
      exact getD_of_get? ha
    have hexec : execInst (.open_loop (some j)) vm =
        .ok { vm with code_ptr := (j : Int) } := by
      simp only [execInst]
      rw [if_pos hmz]
    unfold vmStep stepWith
    rw [hfetch, hexec]
  · intro vm hcp hmnz
    have hfetch : prog.getD vm.code_ptr.toNat default =
        .close_loop ((i : Int) - 1) := by
      rw [hcp, Int.toNat_natCast]
      exact getD_of_get? hb
    have hexec : execInst (.close_loop ((i : Int) - 1)) vm =
        .ok { vm with code_ptr := (i : Int) - 1 } := by
      simp only [execInst]
      rw [if_pos hmnz]
    unfold vmStep stepWith
    rw [hfetch, hexec]

theorem c1_witness :
    ([Inst.open_loop (some 1), Inst.close_loop (-1)].get? 0 =
        some (.open_loop (some 1))) ∧
    ([Inst.open_loop (some 1), Inst.close_loop (-1)].get? 1 =
        some (.close_loop (((0 : Nat) : Int) - 1))) ∧
    (∀ vm : BFVM, vm.code_ptr = ((0 : Nat) : Int) → memGet vm = 0 →
      vmStep [Inst.open_loop (some 1), Inst.close_loop (-1)] vm =
        .ok { vm with code_ptr := ((1 : Nat) : Int) + 1 }) ∧
    (∀ vm : BFVM, vm.code_ptr = ((1 : Nat) : Int) → memGet vm ≠ 0 →
      vmStep [Inst.open_loop (some 1), Inst.close_loop (-1)] vm =
        .ok { vm with code_ptr := (((0 : Nat) : Int) - 1) + 1 }) :=
  c1_amended ['[', ']'] [.open_loop (some 1), .close_loop (-1)] (by decide)
    0 1 (by decide)

/-! ### Claim C10: instruction fetches stay in bounds -/

theorem targetsOk_of_inv (prog : List Inst) (h : compileInv prog) :
    TargetsOk prog := by
  obtain ⟨h1, h2, h3, h4, h5, h6⟩ := h
  constructor
  · intro i j hij
    have hpair := h3 i j hij
    obtain ⟨_, hb⟩ := h2 (i, j) hpair
    exact get?_some_lt hb
  · intro j t hjt
    obtain ⟨i, hpair, ht⟩ := h4 j t hjt
    obtain ⟨ha, _⟩ := h2 (i, j) hpair
    have hi := get?_some_lt ha
    subst ht
    constructor
    · omega
    · have : (i : Int) < (prog.length : Int) := by exact_mod_cast hi
      omega

/-- One step of the VM preserves non-negativity of the instruction
pointer, provided the program's jump targets are in range: non-jumps
increment, an open jump writes an index `≥ 0`, a close jump writes a value
`≥ -1` and the post-increment brings it back to `≥ 0`. -/
theorem vmStep_ip_nonneg (prog : List Inst) (vm vm' : BFVM)
    (ht : TargetsOk prog) (h0 : 0 ≤ vm.code_ptr)
    (hlt : vm.code_ptr < (prog.length : Int))
    (hs : vmStep prog vm = .ok vm') : 0 ≤ vm'.code_ptr := by
  have hidx : vm.code_ptr.toNat < prog.length := by omega
  have hget : prog.get? vm.code_ptr.toNat =
      some (prog.getD vm.code_ptr.toNat default) := get?_getD hidx
  unfold vmStep stepWith at hs
  cases hinst : prog.getD vm.code_ptr.toNat default with
  | add d =>
    rw [hinst] at hs
    simp only [execInst] at hs
    injection hs with h2
    rw [← h2]
    simp
    omega
  | move_ptr d =>
    rw [hinst] at hs
    simp only [execInst] at hs
    injection hs with h2
    rw [← h2]
    simp
    omega
  | open_loop c =>
    rw [hinst] at hs
    simp only [execInst] at hs
    by_cases hz : memGet vm = 0
    · rw [if_pos hz] at hs
      cases c with
      | none => cases hs
      | some a =>
        injection hs with h2
        rw [← h2]
        simp
        positivity
    · rw [if_neg hz] at hs
      injection hs with h2
      rw [← h2]
      simp
      omega
  | close_loop t =>
    rw [hinst] at hs
    rw [hinst] at hget
    have hrange := ht.2 vm.code_ptr.toNat t hget
    simp only [execInst] at hs
    by_cases hz : memGet vm ≠ 0
    · rw [if_pos hz] at hs
      injection hs with h2
      rw [← h2]
      simp
      omega
    · rw [if_neg hz] at hs
      injection hs with h2
      rw [← h2]
      simp
      omega
  | getch =>
    rw [hinst] at hs
    simp only [execInst] at hs
    cases hg : termGetch vm.input with
    | error e => rw [hg] at hs; cases hs
    | ok p =>
      rw [hg] at hs
      injection hs with h2
      rw [← h2]
      simp
      omega
  | putch =>
    rw [hinst] at hs
    simp only [execInst] at hs
    injection hs with h2
    rw [← h2]
    simp
    omega

theorem outcome_vm_wrapErr (e : ExecErr) (vm : BFVM) :
    (wrapErr e vm).vm = vm := by
  cases e <;> rfl

theorem runFuel_ip_nonneg (prog : List Inst) (ht : TargetsOk prog) :
    ∀ (f : Nat) (vm : BFVM), 0 ≤ vm.code_ptr →
      0 ≤ ((runFuel prog f vm).vm).code_ptr := by
  intro f
  induction f with
  | zero => intro vm h0; exact h0
  | succ g ih =>
    intro vm h0
    show 0 ≤ ((runFuelWith execInst prog (g + 1) vm).vm).code_ptr
    rw [runFuelWith_succ]
    by_cases hc : vm.code_ptr < (prog.length : Int)
    · rw [if_pos hc]
      cases hs : stepWith execInst prog vm with
      | error e =>
        show 0 ≤ ((wrapErr e vm).vm).code_ptr
        rw [outcome_vm_wrapErr]
        exact h0
      | ok vm2 =>
        show 0 ≤ ((runFuelWith execInst prog g vm2).vm).code_ptr
        exact ih vm2 (vmStep_ip_nonneg prog vm vm2 ht h0 hc hs)
    · rw [if_neg hc]
      exact h0

/-- Claim C10: for every successfully compiled program, every resolved
jump target is in `[-1, length)` (`[0, length)` for opens), and along any
execution from a state with non-negative instruction pointer the pointer
stays non-negative; together with the loop guard `code_ptr < length`,
every fetch of the run loop indexes the instruction list inside
`[0, length)` — in particular never at a negative index. -/
theorem c10_ip_safety : ∀ (s : List Char) (prog : List Inst),
    compile s = .ok prog →
    TargetsOk prog ∧
    ∀ (f : Nat) (vm : BFVM), 0 ≤ vm.code_ptr →
      0 ≤ ((runFuel prog f vm).vm).code_ptr := by
  intro s prog hc
  have ht := targetsOk_of_inv prog (compile_inv s prog hc)
  exact ⟨ht, fun f vm h0 => runFuel_ip_nonneg prog ht f vm h0⟩

theorem c10_witness :
    TargetsOk [Inst.open_loop (some 1), Inst.close_loop (-1)] ∧
    ∀ (f : Nat) (vm : BFVM), 0 ≤ vm.code_ptr →
      0 ≤ ((runFuel [Inst.open_loop (some 1), Inst.close_loop (-1)] f vm).vm).code_ptr :=
  c10_ip_safety ['[', ']'] [.open_loop (some 1), .close_loop (-1)] (by decide)

/-! ### Claim C5: modular bounds on cells and data pointer -/

theorem stepWith_ok_exec (ex : Inst → BFVM → Except ExecErr BFVM)
    (prog : List Inst) (vm vm' : BFVM) (h : stepWith ex prog vm = .ok vm') :
    ∃ vm2, ex (prog.getD vm.code_ptr.toNat default) vm = .ok vm2 ∧
      vm' = { vm2 with code_ptr := vm2.code_ptr + 1 } := by
  unfold stepWith at h
  cases hx : ex (prog.getD vm.code_ptr.toNat default) vm with
  | error e => rw [hx] at h; cases h
  | ok vm2 =>
    rw [hx] at h
    exact ⟨vm2, rfl, (Except.ok.inj h).symm⟩

/-- Executing one instruction preserves the sizes, keeps the data pointer
in `[0, mem_size)`, keeps every cell non-negative, and — except for the
Input instruction, which stores the raw character code — keeps every cell
below the cell modulus. -/
theorem execInst_preserves (i : Inst) (vm vm' : BFVM)
    (hms : 0 < vm.mem_size) (hcs : 0 < vm.cell_size)
    (hp0 : 0 ≤ vm.mem_ptr) (hplt : vm.mem_ptr < (vm.mem_size : Int))
    (hnn : ∀ x ∈ vm.memory, 0 ≤ x)
    (hex : execInst i vm = .ok vm') :
    vm'.mem_size = vm.mem_size ∧ vm'.cell_size = vm.cell_size ∧
    0 ≤ vm'.mem_ptr ∧ vm'.mem_ptr < (vm'.mem_size : Int) ∧
    (∀ x ∈ vm'.memory, 0 ≤ x) ∧
    (¬ i = Inst.getch → (∀ x ∈ vm.memory, x < (vm.cell_size : Int)) →
      ∀ x ∈ vm'.memory, x < (vm'.cell_size : Int)) := by
  have hcsne : (vm.cell_size : Int) ≠ 0 := by positivity
  have hcspos : (0 : Int) < (vm.cell_size : Int) := by exact_mod_cast hcs
  have hmspos : (0 : Int) < (vm.mem_size : Int) := by exact_mod_cast hms
  cases i with
  | add d =>
    simp only [execInst] at hex
    obtain rfl := (Except.ok.inj hex).symm
    refine ⟨rfl, rfl, hp0, hplt, ?_, ?_⟩
    · intro x hx
      rcases List.mem_or_eq_of_mem_set hx with hx' | rfl
      · exact hnn x hx'
      · exact Int.emod_nonneg _ hcsne
    · intro _ _ x hx
      rcases List.mem_or_eq_of_mem_set hx with hx' | rfl
      · exact ‹∀ x ∈ vm.memory, x < (vm.cell_size : Int)› x hx'
      · exact Int.emod_lt_of_pos _ hcspos
  | move_ptr d =>
    simp only [execInst] at hex
    obtain rfl := (Except.ok.inj hex).symm
    exact ⟨rfl, rfl, Int.emod_nonneg _ (by positivity),
           Int.emod_lt_of_pos _ hmspos, hnn, fun _ h => h⟩
  | open_loop c =>
    simp only [execInst] at hex
    by_cases hz : memGet vm = 0
    · rw [if_pos hz] at hex
      cases c with
      | none => cases hex
      | some a =>
        obtain rfl := (Except.ok.inj hex).symm
        exact ⟨rfl, rfl, hp0, hplt, hnn, fun _ h => h⟩
    · rw [if_neg hz] at hex
      obtain rfl := (Except.ok.inj hex).symm
      exact ⟨rfl, rfl, hp0, hplt, hnn, fun _ h => h⟩
  | close_loop t =>
    simp only [execInst] at hex
    by_cases hz : memGet vm ≠ 0
    · rw [if_pos hz] at hex
      obtain rfl := (Except.ok.inj hex).symm
      exact ⟨rfl, rfl, hp0, hplt, hnn, fun _ h => h⟩
    · rw [if_neg hz] at hex
      obtain rfl := (Except.ok.inj hex).symm
      exact ⟨rfl, rfl, hp0, hplt, hnn, fun _ h => h⟩
  | getch =>
    simp only [execInst] at hex
    cases hg : termGetch vm.input with
    | error e => rw [hg] at hex; cases hex
    | ok p =>
      rw [hg] at hex
      obtain rfl := (Except.ok.inj hex).symm
      refine ⟨rfl, rfl, hp0, hplt, ?_, ?_⟩
      · intro x hx
        rcases List.mem_or_eq_of_mem_set hx with hx' | rfl
        · exact hnn x hx'
        · positivity
      · intro hgetch
        exact absurd rfl hgetch
  | putch =>
    simp only [execInst] at hex
    obtain rfl := (Except.ok.inj hex).symm
    exact ⟨rfl, rfl, hp0, hplt, hnn, fun _ h => h⟩

/-- The instruction executed by a fetch is either an instruction of the
program or the harmless default produced by an out-of-range index. -/
theorem fetched_cases (prog : List Inst) (idx : Nat) :
    prog.getD idx default ∈ prog ∨ prog.getD idx default = Inst.add 0 := by
  rcases Nat.lt_or_ge idx prog.length with h | h
  · left
    rw [List.getD_eq_getElem prog default h]
    exact List.getElem_mem h
  · right
    exact List.getD_eq_default prog default h

/-- Amended claim C5, over every fuel (hence after every executed
operation, since smaller fuels expose every intermediate state): starting
from a state with positive sizes, data pointer in range and non-negative
cells, the state reached by the run loop still has its data pointer in
`[0, mem_size)` and all cells non-negative; and if the program contains no
Input instruction, cells also stay below the cell modulus.  (The Input
instruction is the sole exception: it stores the raw character code,
which may reach `cell_size` or beyond — see `c5_counterexample`.) -/
theorem c5_amended : ∀ (prog : List Inst) (f : Nat) (vm : BFVM),
    0 < vm.mem_size → 0 < vm.cell_size →
    0 ≤ vm.mem_ptr → vm.mem_ptr < (vm.mem_size : Int) →
    (∀ x ∈ vm.memory, 0 ≤ x) →
    ((runFuel prog f vm).vm).mem_size = vm.mem_size ∧
    ((runFuel prog f vm).vm).cell_size = vm.cell_size ∧
    0 ≤ ((runFuel prog f vm).vm).mem_ptr ∧
    ((runFuel prog f vm).vm).mem_ptr < ((((runFuel prog f vm).vm).mem_size : Nat) : Int) ∧
    (∀ x ∈ ((runFuel prog f vm).vm).memory, 0 ≤ x) ∧
    ((∀ i ∈ prog, ¬ i = Inst.getch) →
      (∀ x ∈ vm.memory, x < (vm.cell_size : Int)) →
      ∀ x ∈ ((runFuel prog f vm).vm).memory,
        x < ((((runFuel prog f vm).vm).cell_size : Nat) : Int)) := by
  intro prog f
  induction f with
  | zero =>
    intro vm hms hcs hp0 hplt hnn
    exact ⟨rfl, rfl, hp0, hplt, hnn, fun _ h => h⟩
  | succ g ih =>
    intro vm hms hcs hp0 hplt hnn
    show _ ∧ _ ∧ _ ∧ _ ∧ _ ∧ _
    have hrw : runFuel prog (g + 1) vm = runFuelWith execInst prog (g + 1) vm := rfl
    rw [hrw, runFuelWith_succ]
    by_cases hc : vm.code_ptr < (prog.length : Int)
    · rw [if_pos hc]
      cases hs : stepWith execInst prog vm with
      | error e =>
        have hv : (wrapErr e vm).vm = vm := outcome_vm_wrapErr e vm
        show (wrapErr e vm).vm.mem_size = vm.mem_size ∧
             (wrapErr e vm).vm.cell_size = vm.cell_size ∧
             0 ≤ (wrapErr e vm).vm.mem_ptr ∧
             (wrapErr e vm).vm.mem_ptr < (((wrapErr e vm).vm.mem_size : Nat) : Int) ∧
             (∀ x ∈ (wrapErr e vm).vm.memory, 0 ≤ x) ∧
             ((∀ i ∈ prog, ¬ i = Inst.getch) →
               (∀ x ∈ vm.memory, x < ((vm.cell_size : Nat) : Int)) →
               ∀ x ∈ (wrapErr e vm).vm.memory,
                 x < (((wrapErr e vm).vm.cell_size : Nat) : Int))
        rw [hv]
        exact ⟨rfl, rfl, hp0, hplt, hnn, fun _ h => h⟩
      | ok vm2 =>
        obtain ⟨vm3, hex, rfl⟩ := stepWith_ok_exec execInst prog vm vm2 hs
        obtain ⟨e1, e2, e3, e4, e5, e6⟩ :=
          execInst_preserves _ vm vm3 hms hcs hp0 hplt hnn hex
        have hms3 : 0 < vm3.mem_size := by rw [e1]; exact hms
        have hcs3 : 0 < vm3.cell_size := by rw [e2]; exact hcs
        obtain ⟨f1, f2, f3, f4, f5, f6⟩ := ih { vm3 with code_ptr := vm3.code_ptr + 1 }
          hms3 hcs3 e3 e4 e5
        refine ⟨f1.trans e1, f2.trans e2, f3, f4, f5, ?_⟩
        intro hng hlt
        have hfetch : ¬ prog.getD vm.code_ptr.toNat default = Inst.getch := by
          rcases fetched_cases prog vm.code_ptr.toNat with hmem | hdef
          · exact hng _ hmem
          · rw [hdef]; simp
        exact f6 hng (e6 hfetch hlt)
    · rw [if_neg hc]
      exact ⟨rfl, rfl, hp0, hplt, hnn, fun _ h => h⟩

theorem c5_witness :
    ((runFuel [Inst.add 300] 2 (mkVM 4 7 [])).vm).mem_size = 4 ∧
    ((runFuel [Inst.add 300] 2 (mkVM 4 7 [])).vm).cell_size = 7 ∧
    0 ≤ ((runFuel [Inst.add 300] 2 (mkVM 4 7 [])).vm).mem_ptr ∧
    ((runFuel [Inst.add 300] 2 (mkVM 4 7 [])).vm).mem_ptr <
      ((((runFuel [Inst.add 300] 2 (mkVM 4 7 [])).vm).mem_size : Nat) : Int) ∧
    (∀ x ∈ ((runFuel [Inst.add 300] 2 (mkVM 4 7 [])).vm).memory, 0 ≤ x) ∧
    ((∀ i ∈ [Inst.add 300], ¬ i = Inst.getch) →
      (∀ x ∈ (mkVM 4 7 []).memory, x < ((mkVM 4 7 []).cell_size : Int)) →
      ∀ x ∈ ((runFuel [Inst.add 300] 2 (mkVM 4 7 [])).vm).memory,
        x < ((((runFuel [Inst.add 300] 2 (mkVM 4 7 [])).vm).cell_size : Nat) : Int)) :=
  c5_amended [Inst.add 300] 2 (mkVM 4 7 []) (by decide) (by decide) (by decide)
    (by decide) (by decide)

/-! ### Claim C9: implemented loop-close semantics refine the reference -/

theorem wrapErr_ne_done (e : ExecErr) (vm v : BFVM) : wrapErr e vm ≠ .done v := by
  cases e <;> simp [wrapErr]

theorem refExec_agree (i : Inst) (vm : BFVM)
    (h : ∀ t, i = .close_loop t → memGet vm = 0) :
    refExecInst i vm = execInst i vm := by
  cases i with
  | close_loop t =>
    have hz := h t rfl
    simp only [refExecInst, execInst]
    rw [if_neg (fun hne => hne hz), if_neg (fun hne => hne hz)]
  | add d => rfl
  | move_ptr d => rfl
  | open_loop c => rfl
  | getch => rfl
  | putch => rfl

theorem step_agree (prog : List Inst) (vm : BFVM)
    (hagree : refExecInst (prog.getD vm.code_ptr.toNat default) vm =
      execInst (prog.getD vm.code_ptr.toNat default) vm) :
    stepWith refExecInst prog vm = stepWith execInst prog vm := by
  unfold stepWith
  rw [hagree]

theorem step_close_taken (prog : List Inst) (vm : BFVM) (t : Int)
    (hinst : prog.getD vm.code_ptr.toNat default = .close_loop t)
    (hnz : memGet vm ≠ 0) :
    stepWith execInst prog vm = .ok { vm with code_ptr := t + 1 } := by
  unfold stepWith
  rw [hinst]
  have hexec : execInst (.close_loop t) vm = .ok { vm with code_ptr := t } := by
    simp only [execInst]
    rw [if_pos hnz]
  rw [hexec]

theorem refStep_close_taken (prog : List Inst) (vm : BFVM) (t : Int)
    (hinst : prog.getD vm.code_ptr.toNat default = .close_loop t)
    (hnz : memGet vm ≠ 0) :
    stepWith refExecInst prog vm = .ok { vm with code_ptr := (t + 1) + 1 } := by
  unfold stepWith
  rw [hinst]
  have hexec : refExecInst (.close_loop t) vm = .ok { vm with code_ptr := t + 1 } := by
    simp only [refExecInst]
    rw [if_pos hnz]
  rw [hexec]

theorem step_open_fall (prog : List Inst) (w : BFVM) (c : Option Nat)
    (hinst : prog.getD w.code_ptr.toNat default = .open_loop c)
    (hnz : ¬ memGet w = 0) :
    stepWith execInst prog w = .ok { w with code_ptr := w.code_ptr + 1 } := by
  unfold stepWith
  rw [hinst]
  have hexec : execInst (.open_loop c) w = .ok w := by
    simp only [execInst]
    rw [if_neg hnz]
  rw [hexec]

theorem runFuelWith_step (ex : Inst → BFVM → Except ExecErr BFVM)
    (prog : List Inst) (k : Nat) (w w1 v : BFVM)
    (hcw : w.code_ptr < (prog.length : Int)) (hsw : stepWith ex prog w = .ok w1)
    (hrun : runFuelWith ex prog k w1 = .done v) :
    runFuelWith ex prog (k + 1) w = .done v := by
  rw [runFuelWith_succ, if_pos hcw, hsw]
  exact hrun

theorem wellMatchedB_close (prog : List Inst) (h : wellMatchedB prog = true)
    (idx : Nat) (t : Int) (hidx : idx < prog.length)
    (hget : prog.getD idx default = .close_loop t) :
    0 ≤ t + 1 ∧ ∃ c, prog.get? (t + 1).toNat = some (.open_loop c) := by
  have hall := List.all_eq_true.mp h idx (List.mem_range.mpr hidx)
  rw [hget] at hall
  rw [Bool.and_eq_true] at hall
  obtain ⟨h1, h2⟩ := hall
  refine ⟨of_decide_eq_true h1, ?_⟩
  cases hg : prog.get? (t + 1).toNat with
  | none => rw [hg] at h2; cases h2
  | some i =>
    rw [hg] at h2
    cases i with
    | open_loop c => exact ⟨c, rfl⟩
    | add d => cases h2
    | move_ptr d => cases h2
    | close_loop q => cases h2
    | getch => cases h2
    | putch => cases h2

/-- At a fetched loop-close of a well-matched program: its captured target
plus one is a valid program index holding an open instruction. -/
theorem taken_close_facts (prog : List Inst) (vm : BFVM) (t : Int)
    (hwm : wellMatchedB prog = true) (hc : vm.code_ptr < (prog.length : Int))
    (hinst : prog.getD vm.code_ptr.toNat default = .close_loop t) :
    0 ≤ t + 1 ∧ t + 1 < (prog.length : Int) ∧
    ∃ c, prog.getD (t + 1).toNat default = .open_loop c := by
  have hlenpos : 0 < prog.length := by
    by_contra hl
    have h0 : prog.getD vm.code_ptr.toNat default = default :=
      List.getD_eq_default _ _ (by omega)
    rw [hinst] at h0
    exact Inst.noConfusion h0
  have hidx : vm.code_ptr.toNat < prog.length := by omega
  obtain ⟨ht0, c, hopen⟩ := wellMatchedB_close prog hwm vm.code_ptr.toNat t hidx hinst
  have hoplt := get?_some_lt hopen
  have hcast : ((t + 1).toNat : Int) = t + 1 := Int.toNat_of_nonneg ht0
  refine ⟨ht0, ?_, ⟨c, getD_of_get? hopen⟩⟩
  rw [← hcast]
  exact_mod_cast hoplt

/-- Every completed reference run is matched by a completed implemented
run (with at most twice the fuel) ending in the identical final state. -/
theorem ref_to_impl (prog : List Inst) (hwm : wellMatchedB prog = true) :
    ∀ (f : Nat) (vm v : BFVM), refRunFuel prog f vm = .done v →
      runFuel prog (2 * f) vm = .done v := by
  intro f
  induction f with
  | zero =>
    intro vm v h
    exact Outcome.noConfusion h
  | succ g ih =>
    intro vm v h
    have h' : runFuelWith refExecInst prog (g + 1) vm = .done v := h
    rw [runFuelWith_succ] at h'
    by_cases hc : vm.code_ptr < (prog.length : Int)
    · rw [if_pos hc] at h'
      show runFuelWith execInst prog (2 * (g + 1)) vm = .done v
      have h2g : 2 * (g + 1) = ((2 * g) + 1) + 1 := by ring
      rw [h2g]
      cases hsr : stepWith refExecInst prog vm with
      | error e =>
        rw [hsr] at h'
        exact absurd h' (wrapErr_ne_done e vm v)
      | ok vm1 =>
        rw [hsr] at h'
        have hrun1 : runFuelWith refExecInst prog g vm1 = .done v := h'
        have himpl1 := ih vm1 v hrun1
        have hagree_case : refExecInst (prog.getD vm.code_ptr.toNat default) vm =
            execInst (prog.getD vm.code_ptr.toNat default) vm →
            runFuelWith execInst prog (((2 * g) + 1) + 1) vm = .done v := by
          intro hagree
          have hsi : stepWith execInst prog vm = .ok vm1 := by
            rw [← step_agree prog vm hagree]
            exact hsr
          exact runFuelWith_step execInst prog _ vm vm1 v hc hsi
            (runFuelWith_done_le execInst prog (Nat.le_succ _) himpl1)
        obtain ⟨i0, hinst⟩ : ∃ i0, prog.getD vm.code_ptr.toNat default = i0 := ⟨_, rfl⟩
        cases i0 with
        | add d => exact hagree_case (by rw [hinst]; rfl)
        | move_ptr d => exact hagree_case (by rw [hinst]; rfl)
        | open_loop c => exact hagree_case (by rw [hinst]; rfl)
        | getch => exact hagree_case (by rw [hinst]; rfl)
        | putch => exact hagree_case (by rw [hinst]; rfl)
        | close_loop t =>
          by_cases hnz : memGet vm ≠ 0
          · obtain ⟨ht0, ht1len, c, hopen⟩ := taken_close_facts prog vm t hwm hc hinst
            have hvm1 : vm1 = { vm with code_ptr := (t + 1) + 1 } := by
              have hrs := refStep_close_taken prog vm t hinst hnz
              rw [hsr] at hrs
              exact Except.ok.inj hrs
            refine runFuelWith_step execInst prog _ vm { vm with code_ptr := t + 1 } v hc
              (step_close_taken prog vm t hinst hnz) ?_
            refine runFuelWith_step execInst prog _ { vm with code_ptr := t + 1 }
              { vm with code_ptr := (t + 1) + 1 } v ht1len ?_ ?_
            · exact step_open_fall prog { vm with code_ptr := t + 1 } c hopen hnz
            · rw [← hvm1]
              exact himpl1
          · exact hagree_case (by
              rw [hinst]
              exact refExec_agree (.close_loop t) vm (fun _ _ => not_not.mp hnz))
    · rw [if_neg hc] at h'
      have hv := Outcome.done.inj h'
      subst hv
      show runFuelWith execInst prog (2 * (g + 1)) vm = .done vm
      rw [show 2 * (g + 1) = ((2 * g) + 1) + 1 from by ring, runFuelWith_succ, if_neg hc]

/-- Every completed implemented run is matched by a completed reference
run (the reference needs no more fuel) ending in the identical state. -/
theorem impl_to_ref (prog : List Inst) (hwm : wellMatchedB prog = true) :
    ∀ (f : Nat) (vm v : BFVM), runFuel prog f vm = .done v →
      refRunFuel prog f vm = .done v := by
  intro f
  induction f using Nat.strong_induction_on with
  | _ f ih =>
    intro vm v h
    cases f with
    | zero => exact Outcome.noConfusion h
    | succ g =>
      have h' : runFuelWith execInst prog (g + 1) vm = .done v := h
      rw [runFuelWith_succ] at h'
      by_cases hc : vm.code_ptr < (prog.length : Int)
      · rw [if_pos hc] at h'
        show runFuelWith refExecInst prog (g + 1) vm = .done v
        cases hsx : stepWith execInst prog vm with
        | error e =>
          rw [hsx] at h'
          exact absurd h' (wrapErr_ne_done e vm v)
        | ok vm1 =>
          rw [hsx] at h'
          have hrun1 : runFuelWith execInst prog g vm1 = .done v := h'
          have hagree_case : refExecInst (prog.getD vm.code_ptr.toNat default) vm =
              execInst (prog.getD vm.code_ptr.toNat default) vm →
              runFuelWith refExecInst prog (g + 1) vm = .done v := by
            intro hagree
            have hsr : stepWith refExecInst prog vm = .ok vm1 := by
              rw [step_agree prog vm hagree]
              exact hsx
            exact runFuelWith_step refExecInst prog g vm vm1 v hc hsr
              (ih g (Nat.lt_succ_self g) vm1 v hrun1)
          obtain ⟨i0, hinst⟩ : ∃ i0, prog.getD vm.code_ptr.toNat default = i0 := ⟨_, rfl⟩
          cases i0 with
          | add d => exact hagree_case (by rw [hinst]; rfl)
          | move_ptr d => exact hagree_case (by rw [hinst]; rfl)
          | open_loop c => exact hagree_case (by rw [hinst]; rfl)
          | getch => exact hagree_case (by rw [hinst]; rfl)
          | putch => exact hagree_case (by rw [hinst]; rfl)
          | close_loop t =>
            by_cases hnz : memGet vm ≠ 0
            · obtain ⟨ht0, ht1len, c, hopen⟩ := taken_close_facts prog vm t hwm hc hinst
              have hvm1 : vm1 = { vm with code_ptr := t + 1 } := by
                have hcs := step_close_taken prog vm t hinst hnz
                rw [hsx] at hcs
                exact Except.ok.inj hcs
              subst hvm1
              cases g with
              | zero =>
                rw [runFuelWith_zero] at hrun1
                exact Outcome.noConfusion hrun1
              | succ g2 =>
                rw [runFuelWith_succ,
                    if_pos (show ({ vm with code_ptr := t + 1 } : BFVM).code_ptr <
                      (prog.length : Int) from ht1len),
                    step_open_fall prog { vm with code_ptr := t + 1 } c hopen hnz] at hrun1
                have hrun2 : runFuelWith execInst prog g2
                    { vm with code_ptr := (t + 1) + 1 } = .done v := hrun1
                have href := ih g2 (by omega) { vm with code_ptr := (t + 1) + 1 } v hrun2
                refine runFuelWith_step refExecInst prog (g2 + 1) vm
                  { vm with code_ptr := (t + 1) + 1 } v hc
                  (refStep_close_taken prog vm t hinst hnz) ?_
                exact runFuelWith_done_le refExecInst prog (Nat.le_succ g2) href
            · exact hagree_case (by
                rw [hinst]
                exact refExec_agree (.close_loop t) vm (fun _ _ => not_not.mp hnz))
      · rw [if_neg hc] at h'
        have hv := Outcome.done.inj h'
        subst hv
        show runFuelWith refExecInst prog (g + 1) vm = .done vm
        rw [runFuelWith_succ, if_neg hc]

/-- Claim C9: for every compiled program whose loop brackets are all
matched (every close's captured target, plus one, indexes an open) and
every starting state — hence every input sequence — the implemented
execution (a taken LoopClose jump writes `match - 1`, so the LoopOpen is
re-executed and re-tests the unchanged nonzero cell) completes exactly
when the reference interpreter (a taken LoopClose jump transfers control
directly to the loop body's first instruction) completes, and with the
IDENTICAL final machine: same output sequence, same final tape contents,
same final data pointer. -/
theorem c9_refinement : ∀ (prog : List Inst), wellMatchedB prog = true →
    ∀ (f : Nat) (vm v : BFVM),
      (runFuel prog f vm = .done v → ∃ f2, refRunFuel prog f2 vm = .done v) ∧
      (refRunFuel prog f vm = .done v → ∃ f2, runFuel prog f2 vm = .done v) := by
  intro prog hwm f vm v
  exact ⟨fun h => ⟨f, impl_to_ref prog hwm f vm v h⟩,
         fun h => ⟨2 * f, ref_to_impl prog hwm f vm v h⟩⟩

theorem c9_witness :
    (runFuel [Inst.open_loop (some 1), Inst.close_loop (-1)] 3 (mkVM 4 4 []) =
        .done { mem_size := 4, cell_size := 4, mem_ptr := 0, memory := [0, 0, 0, 0],
                code_ptr := 2, input := [], output := [] } →
      ∃ f2, refRunFuel [Inst.open_loop (some 1), Inst.close_loop (-1)] f2 (mkVM 4 4 []) =
        .done { mem_size := 4, cell_size := 4, mem_ptr := 0, memory := [0, 0, 0, 0],
                code_ptr := 2, input := [], output := [] }) ∧
    (refRunFuel [Inst.open_loop (some 1), Inst.close_loop (-1)] 3 (mkVM 4 4 []) =
        .done { mem_size := 4, cell_size := 4, mem_ptr := 0, memory := [0, 0, 0, 0],
                code_ptr := 2, input := [], output := [] } →
      ∃ f2, runFuel [Inst.open_loop (some 1), Inst.close_loop (-1)] f2 (mkVM 4 4 []) =
        .done { mem_size := 4, cell_size := 4, mem_ptr := 0, memory := [0, 0, 0, 0],
                code_ptr := 2, input := [], output := [] }) :=
  c9_refinement [Inst.open_loop (some 1), Inst.close_loop (-1)] (by decide) 3 (mkVM 4 4 [])
    { mem_size := 4, cell_size := 4, mem_ptr := 0, memory := [0, 0, 0, 0],
      code_ptr := 2, input := [], output := [] }

/-! ### Claim C4: noise characters that do not split runs are no-ops -/

theorem isBFChar_of_isPM (c : Char) (h : isPM c = true) : isBFChar c = true := by
  simp [isBFChar, h]

theorem isBFChar_of_isLR (c : Char) (h : isLR c = true) : isBFChar c = true := by
  simp [isBFChar, h]

theorem isLR_eq_false_of_isPM (c : Char) (h : isPM c = true) : isLR c = false := by
  simp [isPM] at h
  rcases h with rfl | rfl <;> decide

theorem isPM_eq_false_of_isLR (c : Char) (h : isLR c = true) : isPM c = false := by
  simp [isLR] at h
  rcases h with rfl | rfl <;> decide

theorem sameFamily_pm_false (x c : Char) (hx : isPM x = true)
    (hc : isPM c = false) : sameFamily x c = false := by
  simp [sameFamily, hc, isLR_eq_false_of_isPM x hx]

theorem sameFamily_lr_false (x c : Char) (hx : isLR x = true)
    (hc : isLR c = false) : sameFamily x c = false := by
  simp [sameFamily, hc, isPM_eq_false_of_isLR x hx]

theorem not_pm_of_no_family (x y : Char) (hx : isPM x = true)
    (h : sameFamily x y = false) : isPM y = false := by
  by_contra hy
  have hy' : isPM y = true := by simpa using hy
  rw [sameFamily, hx, hy'] at h
  simp at h

theorem not_lr_of_no_family (x y : Char) (hx : isLR x = true)
    (h : sameFamily x y = false) : isLR y = false := by
  by_contra hy
  have hy' : isLR y = true := by simpa using hy
  rw [sameFamily, hx, hy'] at h
  simp at h

theorem stripNoise_nil : stripNoise [] = [] := rfl

theorem stripNoise_cons_sig (c : Char) (cs : List Char) (h : isBFChar c = true) :
    stripNoise (c :: cs) = c :: stripNoise cs := by
  simp [stripNoise, h]

theorem stripNoise_cons_noise (c : Char) (cs : List Char) (h : isBFChar c = false) :
    stripNoise (c :: cs) = stripNoise cs := by
  simp [stripNoise, h]

theorem stripNoise_append_sig (r rest : List Char)
    (h : ∀ c ∈ r, isBFChar c = true) :
    stripNoise (r ++ rest) = r ++ stripNoise rest := by
  rw [stripNoise, List.filter_append]
  rw [show r.filter isBFChar = r from List.filter_eq_self.mpr h]
  rfl

theorem noSplitAux_cons (prev : Option Char) (c : Char) (rest : List Char) :
    noSplitAux prev (c :: rest) =
      ((if isBFChar c then true
        else
          match prev, (stripNoise rest).head? with
          | some x, some y => !(sameFamily x y)
          | _, _ => true) && noSplitAux (some c) rest) := rfl

theorem noSplitAux_cons_sig (prev : Option Char) (c : Char) (rest : List Char)
    (h : isBFChar c = true) :
    noSplitAux prev (c :: rest) = noSplitAux (some c) rest := by
  rw [noSplitAux_cons, h]
  simp

theorem noSplitAux_cons_noise (prev : Option Char) (c : Char) (rest : List Char)
    (h : isBFChar c = false) :
    noSplitAux prev (c :: rest) =
      ((match prev, (stripNoise rest).head? with
        | some x, some y => !(sameFamily x y)
        | _, _ => true) && noSplitAux (some c) rest) := by
  rw [noSplitAux_cons, h]
  simp

theorem noSplitAux_run (r : List Char) : ∀ (prev : Option Char) (rest : List Char)
    (x : Char), (∀ c ∈ r, isBFChar c = true) → r.getLast? = some x →
    noSplitAux prev (r ++ rest) = true → noSplitAux (some x) rest = true := by
  induction r with
  | nil => intro prev rest x _ hx; cases hx
  | cons c r ih =>
    intro prev rest x hall hx h
    have hc := hall c (by simp)
    rw [List.cons_append, noSplitAux_cons_sig prev c _ hc] at h
    cases r with
    | nil =>
      have hcx : c = x := by simpa using hx
      subst hcx
      simpa using h
    | cons c2 r2 =>
      have hx' : (c2 :: r2).getLast? = some x := by
        rw [← hx]
        exact List.getLast?_cons_cons.symm
      exact ih (some c) rest x (fun y hy => hall y (by simp [hy])) hx' h

/-- At a noise-free boundary: after a run ending in `x`, the next
significant character (the head of the stripped remainder) is never in
`x`'s family. -/
theorem strip_head_no_split (x : Char) (rest : List Char)
    (hx : noSplitAux (some x) rest = true)
    (hstop : ∀ c, rest.head? = some c → sameFamily x c = false) :
    ∀ y, (stripNoise rest).head? = some y → sameFamily x y = false := by
  cases rest with
  | nil => intro y hy; rw [stripNoise_nil] at hy; cases hy
  | cons d rest2 =>
    intro y hy
    by_cases hd : isBFChar d = true
    · rw [stripNoise_cons_sig d rest2 hd] at hy
      have hdy : d = y := by simpa using hy
      subst hdy
      exact hstop d rfl
    · have hd' : isBFChar d = false := by simpa using hd
      rw [stripNoise_cons_noise d rest2 hd'] at hy
      rw [noSplitAux_cons_noise (some x) d rest2 hd', Bool.and_eq_true] at hx
      obtain ⟨hg, _⟩ := hx
      rw [hy] at hg
      simpa using hg

theorem add_if_shape (c : Char) (cs : List Char) :
    BFDefaultInstructions.add (c :: cs) =
      (if (BFDefaultInstructions.addLoop (c :: cs) 0).2 = 0 then none
       else some (.add (BFDefaultInstructions.addLoop (c :: cs) 0).2),
       (BFDefaultInstructions.addLoop (c :: cs) 0).1) := by
  simp only [BFDefaultInstructions.add]
  by_cases hz : (BFDefaultInstructions.addLoop (c :: cs) 0).2 = 0
  · rw [if_pos hz, if_pos hz]
  · rw [if_neg hz, if_neg hz]

theorem move_if_shape (c : Char) (cs : List Char) :
    BFDefaultInstructions.move_ptr (c :: cs) =
      (if (BFDefaultInstructions.moveLoop (c :: cs) 0).2 = 0 then none
       else some (.move_ptr (BFDefaultInstructions.moveLoop (c :: cs) 0).2),
       (BFDefaultInstructions.moveLoop (c :: cs) 0).1) := by
  simp only [BFDefaultInstructions.move_ptr]
  by_cases hz : (BFDefaultInstructions.moveLoop (c :: cs) 0).2 = 0
  · rw [if_pos hz, if_pos hz]
  · rw [if_neg hz, if_neg hz]

/-- Main induction for the amended claim C4: compiling a source whose
noise never sits inside a `+`/`-` or `<`/`>` run produces, step by step,
the same successful result as compiling its noise-free counterpart (error
positions may differ, so results are compared through `okP`). -/
theorem compile_strip_main : ∀ (n : Nat) (s : List Char), s.length ≤ n →
    ∀ (prev : Option Char) (insts : List Inst) (o o2 f f2 : Nat),
    s.length < f → (stripNoise s).length < f2 →
    noSplitAux prev s = true →
    okP (compileAux o f s insts) = okP (compileAux o2 f2 (stripNoise s) insts) := by
  intro n
  induction n with
  | zero =>
    intro s hs prev insts o o2 f f2 hf hf2 _
    have hsn : s = [] := List.eq_nil_of_length_eq_zero (Nat.le_zero.mp hs)
    subst hsn
    obtain ⟨fa, rfl⟩ : ∃ fa, f = fa + 1 := ⟨f - 1, by omega⟩
    obtain ⟨fb, rfl⟩ : ∃ fb, f2 = fb + 1 := ⟨f2 - 1, by omega⟩
    rw [stripNoise_nil, compileAux_nil, compileAux_nil]
  | succ n ih =>
    intro s hs prev insts o o2 f f2 hf hf2 hns
    cases s with
    | nil =>
      obtain ⟨fa, rfl⟩ : ∃ fa, f = fa + 1 := ⟨f - 1, by omega⟩
      obtain ⟨fb, rfl⟩ : ∃ fb, f2 = fb + 1 := ⟨f2 - 1, by omega⟩
      rw [stripNoise_nil, compileAux_nil, compileAux_nil]
    | cons c cs =>
      obtain ⟨fa, rfl⟩ : ∃ fa, f = fa + 1 := ⟨f - 1, by omega⟩
      obtain ⟨fb, rfl⟩ : ∃ fb, f2 = fb + 1 := ⟨f2 - 1, by omega⟩
      have hcs_n : cs.length ≤ n := by
        simp only [List.length_cons] at hs
        omega
      have hcs_len : cs.length < fa := by
        simp only [List.length_cons] at hf
        omega
      by_cases hbf : isBFChar c = true
      · have hns' : noSplitAux (some c) cs = true := by
          rw [noSplitAux_cons_sig prev c cs hbf] at hns
          exact hns
        have hstl : (stripNoise cs).length < fb := by
          have := congrArg List.length (stripNoise_cons_sig c cs hbf)
          simp only [List.length_cons] at this
          omega
        by_cases hpm : isPM c = true
        · -- a +/- run
          obtain ⟨r, hallr, hdec, hsum, hstoprest⟩ := addLoop_decomp (c :: cs) 0
          cases r with
          | nil =>
            exfalso
            rw [List.nil_append] at hdec
            have hhead : (BFDefaultInstructions.addLoop (c :: cs) 0).1.head? = some c := by
              rw [← hdec]
              rfl
            have hfalse := hstoprest c hhead
            rw [hpm] at hfalse
            exact Bool.noConfusion hfalse
          | cons c0 r2 =>
            rw [List.cons_append] at hdec
            injection hdec with hc0 hcs2
            subst hc0
            have hallBF : ∀ y ∈ (c :: r2), isBFChar y = true :=
              fun y hy => isBFChar_of_isPM y (hallr y hy)
            obtain ⟨x, hxlast, hxmem⟩ :
                ∃ x, (c :: r2).getLast? = some x ∧ x ∈ (c :: r2) :=
              ⟨(c :: r2).getLast (List.cons_ne_nil c r2),
               List.getLast?_eq_getLast_of_ne_nil _, List.getLast_mem _⟩
            have hxPM : isPM x = true := hallr x hxmem
            have hnsrest : noSplitAux (some x)
                (BFDefaultInstructions.addLoop (c :: cs) 0).1 = true := by
              apply noSplitAux_run (c :: r2) prev _ x hallBF hxlast
              rw [List.cons_append, ← hcs2]
              exact hns
            have hstrip : stripNoise (c :: cs) =
                c :: (r2 ++ stripNoise (BFDefaultInstructions.addLoop (c :: cs) 0).1) := by
              conv_lhs => rw [show (c :: cs) =
                (c :: r2) ++ (BFDefaultInstructions.addLoop (c :: cs) 0).1 from by
                  rw [List.cons_append]
                  exact congrArg (c :: ·) hcs2]
              rw [stripNoise_append_sig _ _ hallBF, List.cons_append]
            have hstopstrip : ∀ y,
                (stripNoise (BFDefaultInstructions.addLoop (c :: cs) 0).1).head? = some y →
                isPM y = false := by
              intro y hy
              have hfam := strip_head_no_split x _ hnsrest
                (fun d hd => sameFamily_pm_false x d hxPM (hstoprest d hd)) y hy
              exact not_pm_of_no_family x y hxPM hfam
            have haddR : BFDefaultInstructions.addLoop
                ((c :: r2) ++ stripNoise (BFDefaultInstructions.addLoop (c :: cs) 0).1) 0 =
                (stripNoise (BFDefaultInstructions.addLoop (c :: cs) 0).1,
                 0 + ((c :: r2).map pmVal).sum) :=
              addLoop_append (c :: r2) _ 0 hallr hstopstrip
            -- length bookkeeping
            have hrest_len : (BFDefaultInstructions.addLoop (c :: cs) 0).1.length ≤ cs.length := by
              have := congrArg List.length hcs2
              simp only [List.length_append] at this
              omega
            have hstrip_len :
                (stripNoise (BFDefaultInstructions.addLoop (c :: cs) 0).1).length < fb := by
              have h1 := congrArg List.length hstrip
              simp only [List.length_cons, List.length_append] at h1
              omega
            -- compute both sides
            rw [compileAux_pm o fa c cs insts hpm, hstrip,
                compileAux_pm o2 fb c _ insts hpm, add_if_shape c cs,
                add_if_shape c (r2 ++ stripNoise (BFDefaultInstructions.addLoop (c :: cs) 0).1)]
            rw [show BFDefaultInstructions.addLoop
                  (c :: (r2 ++ stripNoise (BFDefaultInstructions.addLoop (c :: cs) 0).1)) 0 =
                (stripNoise (BFDefaultInstructions.addLoop (c :: cs) 0).1,
                 0 + ((c :: r2).map pmVal).sum) from by
              rw [← List.cons_append]
              exact haddR]
            rw [hsum]
            by_cases hz : (0 : Int) + ((c :: r2).map pmVal).sum = 0
            · rw [if_pos hz]
              exact ih _ (le_trans hrest_len hcs_n) (some x) insts o o2 fa fb
                (lt_of_le_of_lt hrest_len hcs_len) hstrip_len hnsrest
            · rw [if_neg hz]
              exact ih _ (le_trans hrest_len hcs_n) (some x)
                (insts ++ [.add (0 + ((c :: r2).map pmVal).sum)]) o o2 fa fb
                (lt_of_le_of_lt hrest_len hcs_len) hstrip_len hnsrest
        · have hpm' : isPM c = false := by simpa using hpm
          by_cases hlr : isLR c = true
          · -- a </> run
            obtain ⟨r, hallr, hdec, hsum, hstoprest⟩ := moveLoop_decomp (c :: cs) 0
            cases r with
            | nil =>
              exfalso
              rw [List.nil_append] at hdec
              have hhead : (BFDefaultInstructions.moveLoop (c :: cs) 0).1.head? = some c := by
                rw [← hdec]
                rfl
              have hfalse := hstoprest c hhead
              rw [hlr] at hfalse
              exact Bool.noConfusion hfalse
            | cons c0 r2 =>
              rw [List.cons_append] at hdec
              injection hdec with hc0 hcs2
              subst hc0
              have hallBF : ∀ y ∈ (c :: r2), isBFChar y = true :=
                fun y hy => isBFChar_of_isLR y (hallr y hy)
              obtain ⟨x, hxlast, hxmem⟩ :
                  ∃ x, (c :: r2).getLast? = some x ∧ x ∈ (c :: r2) :=
                ⟨(c :: r2).getLast (List.cons_ne_nil c r2),
                 List.getLast?_eq_getLast_of_ne_nil _, List.getLast_mem _⟩
              have hxLR : isLR x = true := hallr x hxmem
              have hnsrest : noSplitAux (some x)
                  (BFDefaultInstructions.moveLoop (c :: cs) 0).1 = true := by
                apply noSplitAux_run (c :: r2) prev _ x hallBF hxlast
                rw [List.cons_append, ← hcs2]
                exact hns
              have hstrip : stripNoise (c :: cs) =
                  c :: (r2 ++ stripNoise (BFDefaultInstructions.moveLoop (c :: cs) 0).1) := by
                conv_lhs => rw [show (c :: cs) =
                  (c :: r2) ++ (BFDefaultInstructions.moveLoop (c :: cs) 0).1 from by
                    rw [List.cons_append]
                    exact congrArg (c :: ·) hcs2]
                rw [stripNoise_append_sig _ _ hallBF, List.cons_append]
              have hstopstrip : ∀ y,
                  (stripNoise (BFDefaultInstructions.moveLoop (c :: cs) 0).1).head? = some y →
                  isLR y = false := by
                intro y hy
                have hfam := strip_head_no_split x _ hnsrest
                  (fun d hd => sameFamily_lr_false x d hxLR (hstoprest d hd)) y hy
                exact not_lr_of_no_family x y hxLR hfam
              have haddR : BFDefaultInstructions.moveLoop
                  ((c :: r2) ++ stripNoise (BFDefaultInstructions.moveLoop (c :: cs) 0).1) 0 =
                  (stripNoise (BFDefaultInstructions.moveLoop (c :: cs) 0).1,
                   0 + ((c :: r2).map lrVal).sum) :=
                moveLoop_append (c :: r2) _ 0 hallr hstopstrip
              have hrest_len :
                  (BFDefaultInstructions.moveLoop (c :: cs) 0).1.length ≤ cs.length := by
                have := congrArg List.length hcs2
                simp only [List.length_append] at this
                omega
              have hstrip_len :
                  (stripNoise (BFDefaultInstructions.moveLoop (c :: cs) 0).1).length < fb := by
                have h1 := congrArg List.length hstrip
                simp only [List.length_cons, List.length_append] at h1
                omega
              rw [compileAux_lr o fa c cs insts hpm' hlr, hstrip,
                  compileAux_lr o2 fb c _ insts hpm' hlr, move_if_shape c cs,
                  move_if_shape c (r2 ++ stripNoise (BFDefaultInstructions.moveLoop (c :: cs) 0).1)]
              rw [show BFDefaultInstructions.moveLoop
                    (c :: (r2 ++ stripNoise (BFDefaultInstructions.moveLoop (c :: cs) 0).1)) 0 =
                  (stripNoise (BFDefaultInstructions.moveLoop (c :: cs) 0).1,
                   0 + ((c :: r2).map lrVal).sum) from by
                rw [← List.cons_append]
                exact haddR]
              rw [hsum]
              by_cases hz : (0 : Int) + ((c :: r2).map lrVal).sum = 0
              · rw [if_pos hz]
                exact ih _ (le_trans hrest_len hcs_n) (some x) insts o o2 fa fb
                  (lt_of_le_of_lt hrest_len hcs_len) hstrip_len hnsrest
              · rw [if_neg hz]
                exact ih _ (le_trans hrest_len hcs_n) (some x)
                  (insts ++ [.move_ptr (0 + ((c :: r2).map lrVal).sum)]) o o2 fa fb
                  (lt_of_le_of_lt hrest_len hcs_len) hstrip_len hnsrest
          · have hlr' : isLR c = false := by simpa using hlr
            have hcc : c = '[' ∨ c = ']' ∨ c = ',' ∨ c = '.' := by
              have hx := hbf
              simp [isBFChar, hpm', hlr'] at hx
              tauto
            rcases hcc with rfl | rfl | rfl | rfl
            · rw [compileAux_open, stripNoise_cons_sig _ _ hbf, compileAux_open]
              exact ih cs hcs_n (some '[') (insts ++ [.open_loop none]) o o2 fa fb
                hcs_len hstl hns'
            · rw [compileAux_close, stripNoise_cons_sig _ _ hbf, compileAux_close]
              cases hcl : BFDefaultInstructions.close_loop insts with
              | none => rfl
              | some insts2 =>
                exact ih cs hcs_n (some ']') insts2 o o2 fa fb hcs_len hstl hns'
            · rw [compileAux_getch, stripNoise_cons_sig _ _ hbf, compileAux_getch]
              exact ih cs hcs_n (some ',') (insts ++ [.getch]) o o2 fa fb
                hcs_len hstl hns'
            · rw [compileAux_putch, stripNoise_cons_sig _ _ hbf, compileAux_putch]
              exact ih cs hcs_n (some '.') (insts ++ [.putch]) o o2 fa fb
                hcs_len hstl hns'
      · have hbf' : isBFChar c = false := by simpa using hbf
        have hns2 : noSplitAux (some c) cs = true := by
          rw [noSplitAux_cons_noise prev c cs hbf', Bool.and_eq_true] at hns
          exact hns.2
        have hstl2 : (stripNoise cs).length < fb + 1 := by
          rw [← stripNoise_cons_noise c cs hbf']
          exact hf2
        rw [compileAux_skip o fa c cs insts hbf', stripNoise_cons_noise c cs hbf']
        exact ih cs hcs_n (some c) insts o o2 fa (fb + 1) hcs_len hstl2 hns2

/-- Amended claim C4: compiling a source with noise characters interleaved
yields an instruction sequence identical to compiling the same text with
the noise removed, PROVIDED no noise sits strictly inside a maximal
`+`/`-` or `<`/`>` run (i.e. between a run character and the next
significant character of the same family) — noise placed inside such a
run splits the run-length merge and changes the emitted sequence (see
`c4_counterexample`).  Successful results are compared; a failing compile
fails on both sides (only the reported character position differs). -/
theorem c4_amended : ∀ s : List Char, noSplit s = true →
    (compile s).toOption = (compile (stripNoise s)).toOption := by
  intro s hns
  have hmain := compile_strip_main s.length s le_rfl none [] s.length
    (stripNoise s).length (s.length + 1) ((stripNoise s).length + 1)
    (Nat.lt_succ_self _) (Nat.lt_succ_self _) hns
  rw [compileAux_eq_compile s, compileAux_eq_compile (stripNoise s)] at hmain
  have hoc : ∀ e : Except CompileError (List Inst), okP (some e) = e.toOption := by
    intro e
    cases e <;> rfl
  rw [hoc, hoc] at hmain
  exact hmain

theorem c4_witness :
    (compile ['a', '+', 'b', '[', 'c', ']', 'd']).toOption =
      (compile (stripNoise ['a', '+', 'b', '[', 'c', ']', 'd'])).toOption :=
  c4_amended ['a', '+', 'b', '[', 'c', ']', 'd'] (by decide)
